import Mathlib

/-!
Verification development for the boris sync-and-ledger subsystem.

Shallow embedding of:
- the monthly range chunker (`apps/api/src/routes/users.ts`,
  `apps/worker/src/scripts/trigger-sync.ts`, `generateMonthlyDateRanges`);
- the append-only spendings ledger read path
  (`packages/database/src/queries`, `latestSpendingsSubquery`,
  `getAccountsWithSpending`, `getObjectsWithSpending`);
- the sync orchestrator upserts (`apps/worker/src/services/meta-syncer.ts`);
- the job queue wrapper (`apps/api/src/lib/queue.ts`) together with the
  graphile-worker dispatch semantics it relies on.

Dates at day granularity are modelled as triples (year, 0-based month,
1-based day) exactly as the JS code manipulates them through
`getUTCFullYear` / `getUTCMonth` / `getUTCDate`, and instants are modelled
as minutes since the epoch where sub-day precision matters.
-/

namespace Boris

/-- Gregorian leap-year rule, as implemented implicitly by `Date.UTC`. -/
def isLeapYear (y : Nat) : Bool :=
  (y % 4 == 0 && y % 100 != 0) || y % 400 == 0

/-- Number of days of month `m` (0-based, as in JS `getUTCMonth`) of year `y`;
this is what `new Date(Date.UTC(y, m + 1, 0)).getUTCDate()` evaluates to. -/
def daysInMonth (y m : Nat) : Nat :=
  if m = 1 then (if isLeapYear y then 29 else 28)
  else if m = 3 ∨ m = 5 ∨ m = 8 ∨ m = 10 then 30
  else 31

/-- Number of days of year `y`. -/
def daysInYear (y : Nat) : Nat :=
  if isLeapYear y then 366 else 365

/-- Number of leap years strictly before year `y` (counting from year 0). -/
def leapsBefore : Nat → Nat
  | 0 => 0
  | y + 1 => leapsBefore y + (if isLeapYear y then 1 else 0)

/-- Number of days from 0000-01-01 to the start of year `y`. -/
def daysBeforeYear (y : Nat) : Nat :=
  365 * y + leapsBefore y

/-- Number of days from the start of year `y` to the start of its month `m`
(0-based). -/
def daysBeforeMonth (y : Nat) : Nat → Nat
  | 0 => 0
  | m + 1 => daysBeforeMonth y m + daysInMonth y m

/-- A UTC calendar date as the JS code handles it: `year` from
`getUTCFullYear`, 0-based `month` from `getUTCMonth`, 1-based `day` from
`getUTCDate`. -/
structure Date where
  year : Nat
  month : Nat
  day : Nat
deriving DecidableEq, Repr

/-- Linear day number of a date (days since 0000-01-01); for valid dates it
orders dates exactly as the JS epoch-millisecond timestamp of their UTC
midnight does. -/
def Date.dayNumber (d : Date) : Nat :=
  daysBeforeYear d.year + daysBeforeMonth d.year d.month + (d.day - 1)

/-- A date triple is valid when the month is in range and the day exists in
that month; this is the shape of every date produced by the JS `Date` API. -/
def Date.Valid (d : Date) : Prop :=
  d.month ≤ 11 ∧ 1 ≤ d.day ∧ d.day ≤ daysInMonth d.year d.month

instance (d : Date) : Decidable d.Valid := by
  unfold Date.Valid; infer_instance

/-- The `chunkEnd` expression of one loop iteration of
`generateMonthlyDateRanges`: the earlier of the last day of the current
month and the overall end date (`lastDayOfMonth.getTime() > endTime ?
endDate : lastDayOfMonth`).  Day numbers order valid dates exactly as the
epoch milliseconds compared by the JS code do. -/
def chunkEndOf (y m : Nat) (endD : Date) : Date :=
  if endD.dayNumber < (Date.mk y m (daysInMonth y m)).dayNumber then endD
  else ⟨y, m, daysInMonth y m⟩

/-- One loop iteration structure of `generateMonthlyDateRanges`
(`apps/api/src/routes/users.ts:157` and
`apps/worker/src/scripts/trigger-sync.ts:29`): the current position is
(y, m, d); emit `[monthStart, chunkEnd]`; stop once the emitted chunk end
reaches `endDate` (`chunkEnd.getTime() >= endTime`), otherwise advance to
the first day of the next month, rolling the year over after December.
`fuel` bounds the recursion; the wrapper below supplies enough fuel for the
loop to run to its `break` exactly as the JS `while (true)` does. -/
def generateMonthlyDateRangesAux : Nat → Nat → Nat → Nat → Date → List (Date × Date)
  | 0, _, _, _, _ => []
  | fuel + 1, y, m, d, endD =>
    if endD.dayNumber ≤ (chunkEndOf y m endD).dayNumber then
      [(⟨y, m, d⟩, chunkEndOf y m endD)]
    else
      (⟨y, m, d⟩, chunkEndOf y m endD) ::
        (if 11 ≤ m then generateMonthlyDateRangesAux fuel (y + 1) 0 1 endD
         else generateMonthlyDateRangesAux fuel y (m + 1) 1 endD)

/-- Embedding of `generateMonthlyDateRanges(startDate, endDate)`: walk
month-by-month from `startDate`, emitting chunks clipped at `endDate`.  The
JS function emits each range as a pair of `YYYY-MM-DD` strings; here the
pair of date triples that those strings render is returned. -/
def generateMonthlyDateRanges (startD endD : Date) : List (Date × Date) :=
  generateMonthlyDateRangesAux (endD.dayNumber - startD.dayNumber + 1)
    startD.year startD.month startD.day endD

/-- Every month has at least one day. -/
theorem daysInMonth_pos (y m : Nat) : 1 ≤ daysInMonth y m := by
  unfold daysInMonth
  split
  · split <;> omega
  · split <;> omega

/-- The twelve month lengths of a year sum to that year's length. -/
theorem daysBeforeMonth_twelve (y : Nat) : daysBeforeMonth y 12 = daysInYear y := by
  cases h : isLeapYear y <;>
    simp [daysBeforeMonth, daysInMonth, daysInYear, h]

/-- The first day of the next month is the day after the last day of the
current month. -/
theorem dayNumber_month_succ (y m : Nat) :
    Date.dayNumber ⟨y, m + 1, 1⟩ = Date.dayNumber ⟨y, m, daysInMonth y m⟩ + 1 := by
  have h := daysInMonth_pos y m
  simp only [Date.dayNumber, daysBeforeMonth]
  omega

/-- Advancing a year adds that year's length to the day count. -/
theorem daysBeforeYear_succ (y : Nat) :
    daysBeforeYear (y + 1) = daysBeforeYear y + daysInYear y := by
  simp only [daysBeforeYear, leapsBefore, daysInYear]
  cases hl : isLeapYear y <;> simp [hl] <;> omega

/-- January 1 of the next year is the day after December 31. -/
theorem dayNumber_year_succ (y : Nat) :
    Date.dayNumber ⟨y + 1, 0, 1⟩ = Date.dayNumber ⟨y, 11, daysInMonth y 11⟩ + 1 := by
  have h11 : daysBeforeMonth y 12 = daysBeforeMonth y 11 + daysInMonth y 11 := rfl
  have h12 := daysBeforeMonth_twelve y
  have hpos := daysInMonth_pos y 11
  have hsucc := daysBeforeYear_succ y
  show daysBeforeYear (y + 1) + daysBeforeMonth (y + 1) 0 + (1 - 1)
      = daysBeforeYear y + daysBeforeMonth y 11 + (daysInMonth y 11 - 1) + 1
  have h0 : daysBeforeMonth (y + 1) 0 = 0 := rfl
  omega

/-- Invariants of the chunker loop, proved by induction on the fuel: the
produced list starts at the current position, its last range ends on the
end date, every range is nonempty, and consecutive ranges are contiguous
(each next range starts the day after the previous one ends). -/
theorem generateMonthlyDateRangesAux_spec (fuel : Nat) :
    ∀ (y m d : Nat) (endD : Date),
    m ≤ 11 → 1 ≤ d → d ≤ daysInMonth y m →
    Date.dayNumber ⟨y, m, d⟩ ≤ endD.dayNumber →
    endD.dayNumber < Date.dayNumber ⟨y, m, d⟩ + fuel →
    ((generateMonthlyDateRangesAux fuel y m d endD).head?.map Prod.fst
        = some ⟨y, m, d⟩) ∧
    (((generateMonthlyDateRangesAux fuel y m d endD).getLast?.map
        fun r => r.2.dayNumber) = some endD.dayNumber) ∧
    (∀ r ∈ generateMonthlyDateRangesAux fuel y m d endD,
        r.1.dayNumber ≤ r.2.dayNumber) ∧
    List.Chain' (fun a b => b.1.dayNumber = a.2.dayNumber + 1)
        (generateMonthlyDateRangesAux fuel y m d endD) := by
  induction fuel with
  | zero =>
    intro y m d endD _ _ _ hle hfuel
    omega
  | succ fuel ih =>
    intro y m d endD hm hd1 hd2 hle hfuel
    have hstart_lastDom :
        Date.dayNumber ⟨y, m, d⟩ ≤ Date.dayNumber ⟨y, m, daysInMonth y m⟩ := by
      simp only [Date.dayNumber]
      omega
    by_cases hbreak : endD.dayNumber ≤ (chunkEndOf y m endD).dayNumber
    · have hchunk_eq : (chunkEndOf y m endD).dayNumber = endD.dayNumber := by
        unfold chunkEndOf at hbreak ⊢
        split at hbreak
        · next h => rw [if_pos h]
        · next h => rw [if_neg h]; omega
      simp only [generateMonthlyDateRangesAux, if_pos hbreak]
      refine ⟨by simp, by simp [hchunk_eq], ?_, by simp⟩
      intro r hr
      simp only [List.mem_singleton] at hr
      subst hr
      simpa [hchunk_eq] using hle
    · push_neg at hbreak
      have hchunk_lastDom : chunkEndOf y m endD = ⟨y, m, daysInMonth y m⟩ := by
        unfold chunkEndOf at hbreak ⊢
        split at hbreak
        · exact absurd hbreak (lt_irrefl _)
        · next h => exact if_neg h
      have hlast_lt : Date.dayNumber ⟨y, m, daysInMonth y m⟩ < endD.dayNumber := by
        rw [hchunk_lastDom] at hbreak
        exact hbreak
      have hnotle : ¬ endD.dayNumber ≤ (chunkEndOf y m endD).dayNumber := by
        rw [hchunk_lastDom]; omega
      simp only [generateMonthlyDateRangesAux, if_neg hnotle]
      by_cases h11 : 11 ≤ m
      · have hm11 : m = 11 := le_antisymm hm h11
        subst hm11
        have hnext : Date.dayNumber ⟨y + 1, 0, 1⟩
            = Date.dayNumber ⟨y, 11, daysInMonth y 11⟩ + 1 :=
          dayNumber_year_succ y
        have hdpos : (1 : Nat) ≤ daysInMonth (y + 1) 0 := daysInMonth_pos (y + 1) 0
        obtain ⟨ihh, ihl, ihr, ihc⟩ :=
          ih (y + 1) 0 1 endD (by omega) le_rfl hdpos (by omega) (by omega)
        rw [if_pos (le_refl 11)]
        cases hL : generateMonthlyDateRangesAux fuel (y + 1) 0 1 endD with
        | nil => rw [hL] at ihh; simp at ihh
        | cons hd' tl' =>
          rw [hL] at ihh ihl ihr ihc
          simp only [List.head?, Option.map_some'] at ihh
          refine ⟨by simp, ?_, ?_, ?_⟩
          · simpa [List.getLast?] using ihl
          · intro r hr
            rcases List.mem_cons.mp hr with h | h
            · subst h
              rw [hchunk_lastDom]
              exact hstart_lastDom
            · exact ihr r h
          · rw [List.chain'_cons]
            refine ⟨?_, ihc⟩
            have : hd'.1 = ⟨y + 1, 0, 1⟩ := by
              injection ihh
            rw [this, hchunk_lastDom, hnext]
      · push_neg at h11
        have hnext : Date.dayNumber ⟨y, m + 1, 1⟩
            = Date.dayNumber ⟨y, m, daysInMonth y m⟩ + 1 :=
          dayNumber_month_succ y m
        have hdpos : (1 : Nat) ≤ daysInMonth y (m + 1) := daysInMonth_pos y (m + 1)
        obtain ⟨ihh, ihl, ihr, ihc⟩ :=
          ih y (m + 1) 1 endD (by omega) le_rfl hdpos (by omega) (by omega)
        rw [if_neg (by omega : ¬ 11 ≤ m)]
        cases hL : generateMonthlyDateRangesAux fuel y (m + 1) 1 endD with
        | nil => rw [hL] at ihh; simp at ihh
        | cons hd' tl' =>
          rw [hL] at ihh ihl ihr ihc
          simp only [List.head?, Option.map_some'] at ihh
          refine ⟨by simp, ?_, ?_, ?_⟩
          · simpa [List.getLast?] using ihl
          · intro r hr
            rcases List.mem_cons.mp hr with h | h
            · subst h
              rw [hchunk_lastDom]
              exact hstart_lastDom
            · exact ihr r h
          · rw [List.chain'_cons]
            refine ⟨?_, ihc⟩
            have : hd'.1 = ⟨y, m + 1, 1⟩ := by
              injection ihh
            rw [this, hchunk_lastDom, hnext]

/-- A contiguous chain of nonempty ranges starting at day `a` and ending at
day `b` covers exactly the days of the closed interval from `a` to `b`. -/
theorem chain_cover (L : List (Date × Date)) :
    ∀ (a b : Nat),
    (L.head?.map fun r => r.1.dayNumber) = some a →
    (L.getLast?.map fun r => r.2.dayNumber) = some b →
    (∀ r ∈ L, r.1.dayNumber ≤ r.2.dayNumber) →
    List.Chain' (fun x z => z.1.dayNumber = x.2.dayNumber + 1) L →
    ∀ t : Nat, ((∃ r ∈ L, r.1.dayNumber ≤ t ∧ t ≤ r.2.dayNumber) ↔ (a ≤ t ∧ t ≤ b)) := by
  induction L with
  | nil => intro a b hh _ _ _ _; simp at hh
  | cons x tl ih =>
    intro a b hh hl hr hc t
    cases tl with
    | nil =>
      simp only [List.head?, Option.map_some', Option.some.injEq] at hh
      simp only [List.getLast?_singleton, Option.map_some', Option.some.injEq] at hl
      constructor
      · rintro ⟨r, hrm, h1, h2⟩
        simp only [List.mem_singleton] at hrm
        subst hrm
        omega
      · intro h
        exact ⟨x, List.mem_singleton_self x, by omega⟩
    | cons y tl' =>
      rw [List.chain'_cons] at hc
      obtain ⟨hxy, hc'⟩ := hc
      simp only [List.head?, Option.map_some', Option.some.injEq] at hh
      have hl' : ((y :: tl').getLast?.map fun r => r.2.dayNumber) = some b := by
        simpa [List.getLast?_cons_cons] using hl
      have hh' : ((y :: tl').head?.map fun r => r.1.dayNumber) = some y.1.dayNumber := by
        simp
      have hr' : ∀ r ∈ y :: tl', r.1.dayNumber ≤ r.2.dayNumber :=
        fun r hrm => hr r (List.mem_cons_of_mem _ hrm)
      have hcov := ih y.1.dayNumber b hh' hl' hr' hc'
      have hyy := hr' y (List.mem_cons_self _ _)
      have hyb : y.1.dayNumber ≤ b :=
        ((hcov y.1.dayNumber).mp ⟨y, List.mem_cons_self _ _, le_rfl, hyy⟩).2
      have hxx := hr x (List.mem_cons_self _ _)
      constructor
      · rintro ⟨r, hrm, h1, h2⟩
        rcases List.mem_cons.mp hrm with h | h
        · subst h
          omega
        · have := (hcov t).mp ⟨r, h, h1, h2⟩
          omega
      · intro h
        by_cases hx : t ≤ x.2.dayNumber
        · exact ⟨x, List.mem_cons_self _ _, by omega, hx⟩
        · obtain ⟨r, hrm, hb⟩ := (hcov t).mpr (by omega)
          exact ⟨r, List.mem_cons_of_mem _ hrm, hb⟩

/-- A contiguous chain of nonempty ranges is pairwise disjoint and ordered:
every earlier range ends strictly before every later one starts. -/
theorem chain_disjoint (L : List (Date × Date)) :
    (∀ r ∈ L, r.1.dayNumber ≤ r.2.dayNumber) →
    List.Chain' (fun x z => z.1.dayNumber = x.2.dayNumber + 1) L →
    List.Pairwise (fun x z => x.2.dayNumber < z.1.dayNumber) L := by
  induction L with
  | nil => intro _ _; exact List.Pairwise.nil
  | cons x tl ih =>
    intro hr hc
    cases tl with
    | nil => simp
    | cons y tl' =>
      rw [List.chain'_cons] at hc
      obtain ⟨hxy, hc'⟩ := hc
      have hr' : ∀ r ∈ y :: tl', r.1.dayNumber ≤ r.2.dayNumber :=
        fun r hrm => hr r (List.mem_cons_of_mem _ hrm)
      have hp := ih hr' hc'
      refine List.Pairwise.cons ?_ hp
      intro z hz
      rcases List.mem_cons.mp hz with h | h
      · subst h
        omega
      · have hyz := (List.pairwise_cons.mp hp).1 z h
        have hyy := hr' y (List.mem_cons_self _ _)
        omega

/-- The full contract of the month chunker on a window from `s` to `e`:
the output starts exactly at `s`, ends exactly on the day of `e`, consists
of nonempty, contiguous, ordered, pairwise disjoint ranges whose union is
exactly the days from `s` to `e`, and a one-day window yields exactly one
range. -/
def ChunkerSpec (s e : Date) : Prop :=
  ((generateMonthlyDateRanges s e).head?.map Prod.fst = some s) ∧
  (((generateMonthlyDateRanges s e).getLast?.map fun r => r.2.dayNumber)
      = some e.dayNumber) ∧
  (∀ r ∈ generateMonthlyDateRanges s e, r.1.dayNumber ≤ r.2.dayNumber) ∧
  List.Chain' (fun a b => b.1.dayNumber = a.2.dayNumber + 1)
      (generateMonthlyDateRanges s e) ∧
  List.Pairwise (fun a b => a.2.dayNumber < b.1.dayNumber)
      (generateMonthlyDateRanges s e) ∧
  (∀ t : Nat,
      (∃ r ∈ generateMonthlyDateRanges s e,
          r.1.dayNumber ≤ t ∧ t ≤ r.2.dayNumber)
        ↔ (s.dayNumber ≤ t ∧ t ≤ e.dayNumber)) ∧
  (s.dayNumber = e.dayNumber → (generateMonthlyDateRanges s e).length = 1)

/-- C2: for every pair of dates start ≤ end, the month chunker returns an
ordered list of disjoint, contiguous sub-ranges whose union equals exactly
the window from start to end; the first and last sub-range are clipped to
the actual boundary dates, and an input with start = end yields exactly one
sub-range. -/
theorem C2_generateMonthlyDateRanges (s e : Date) (hs : s.Valid)
    (hle : s.dayNumber ≤ e.dayNumber) : ChunkerSpec s e := by
  obtain ⟨hm, hd1, hd2⟩ := hs
  have hs_eta : (⟨s.year, s.month, s.day⟩ : Date) = s := rfl
  unfold ChunkerSpec generateMonthlyDateRanges
  obtain ⟨hh, hl, hr, hc⟩ :=
    generateMonthlyDateRangesAux_spec (e.dayNumber - s.dayNumber + 1)
      s.year s.month s.day e hm hd1 hd2 (by rw [hs_eta]; exact hle)
      (by rw [hs_eta]; omega)
  rw [hs_eta] at hh
  have hh' : ((generateMonthlyDateRangesAux (e.dayNumber - s.dayNumber + 1)
      s.year s.month s.day e).head?.map fun r => r.1.dayNumber)
      = some s.dayNumber := by
    cases hL : (generateMonthlyDateRangesAux (e.dayNumber - s.dayNumber + 1)
        s.year s.month s.day e).head? with
    | none => rw [hL] at hh; simp at hh
    | some x =>
      rw [hL] at hh
      simp only [Option.map_some', Option.some.injEq] at hh ⊢
      rw [hh]
  have hcov := chain_cover _ s.dayNumber e.dayNumber hh' hl hr hc
  refine ⟨hh, hl, hr, hc, chain_disjoint _ hr hc, hcov, ?_⟩
  intro hse
  cases hL : generateMonthlyDateRangesAux (e.dayNumber - s.dayNumber + 1)
      s.year s.month s.day e with
  | nil => rw [hL] at hh; simp at hh
  | cons x tl =>
    cases tl with
    | nil => simp
    | cons y tl' =>
      exfalso
      rw [hL] at hh hr hc hcov
      simp only [List.head?, Option.map_some', Option.some.injEq] at hh
      rw [List.chain'_cons] at hc
      have hxs : x.1.dayNumber = s.dayNumber := by rw [hh]
      have hxx := hr x (List.mem_cons_self _ _)
      have hyy := hr y (List.mem_cons_of_mem _ (List.mem_cons_self _ _))
      have hyin : y ∈ x :: y :: tl' := List.mem_cons_of_mem _ (List.mem_cons_self _ _)
      have := (hcov y.1.dayNumber).mp ⟨y, hyin, le_rfl, hyy⟩
      have hxy := hc.1
      omega

/-- Witness for C2: the spec example window 0004-01-01 to 0004-03-15 in a
leap year splits into January, February (29 days) and a clipped March. -/
theorem C2_generateMonthlyDateRanges_witness :
    (Date.mk 4 0 1).Valid ∧
    (Date.mk 4 0 1).dayNumber ≤ (Date.mk 4 2 15).dayNumber ∧
    ChunkerSpec ⟨4, 0, 1⟩ ⟨4, 2, 15⟩ ∧
    generateMonthlyDateRanges ⟨4, 0, 1⟩ ⟨4, 2, 15⟩ =
      [(⟨4, 0, 1⟩, ⟨4, 0, 31⟩), (⟨4, 1, 1⟩, ⟨4, 1, 29⟩), (⟨4, 2, 1⟩, ⟨4, 2, 15⟩)] :=
  ⟨by decide, by decide,
    C2_generateMonthlyDateRanges ⟨4, 0, 1⟩ ⟨4, 2, 15⟩ (by decide) (by decide),
    by decide⟩

/-- One row of the append-only `spendings` table
(`packages/database/src/schema`, used by `latestSpendingsSubquery`):
timestamps are modelled as integers (days for `periodStart`, arbitrary
ticks for `collectedAt`), money as integer minor units. -/
structure Spending where
  adObjectId : Nat
  collectedAt : Int
  periodStart : Int
  amountCents : Int
  impressions : Int
  clicks : Int
  conversions : Int
deriving DecidableEq, Repr

/-- The row filter of `latestSpendingsSubquery`: `periodStart >= startDate
AND periodStart < endDate + 1 day` (the query adds one day to `endDate` to
make the window end-inclusive). -/
def inWindow (startDate endDate : Int) (r : Spending) : Bool :=
  decide (startDate ≤ r.periodStart) && decide (r.periodStart < endDate + 1)

/-- Combining step selecting the row with the larger collection timestamp;
models the effect of `ORDER BY collected_at DESC` under `DISTINCT ON`. -/
def pickLatest : Option Spending → Spending → Option Spending
  | none, r => some r
  | some b, r => some (if b.collectedAt < r.collectedAt then r else b)

/-- The row `SELECT DISTINCT ON (ad_object_id, period_start) ... ORDER BY
collected_at DESC` retains for one key: the max-collection-timestamp row
among the rows of that key, if any. -/
def latestForKey (rows : List Spending) (o : Nat) (p : Int) : Option Spending :=
  (rows.filter fun r => r.adObjectId == o && r.periodStart == p).foldl pickLatest none

/-- The distinct (ad_object_id, period_start) keys of a row set. -/
def spendingKeys (rows : List Spending) : List (Nat × Int) :=
  (rows.map fun r => (r.adObjectId, r.periodStart)).dedup

/-- Embedding of `latestSpendingsSubquery(startDate, endDate)`
(`packages/database/src/queries:118`): window-filter the append-only rows,
then keep exactly one row per (ad_object_id, period_start) key — the one
with the maximum `collected_at`. -/
def latestSpendingsSubquery (startDate endDate : Int) (rows : List Spending) :
    List Spending :=
  (spendingKeys (rows.filter (inWindow startDate endDate))).filterMap
    fun k => latestForKey (rows.filter (inWindow startDate endDate)) k.1 k.2

/-- The accumulator step always produces a row. -/
theorem pickLatest_isSome (acc : Option Spending) (x : Spending) :
    ∃ b, pickLatest acc x = some b := by
  cases acc with
  | none => exact ⟨x, rfl⟩
  | some b => exact ⟨if b.collectedAt < x.collectedAt then x else b, rfl⟩

/-- The accumulator step keeps a row at least as recent as both inputs. -/
theorem pickLatest_mono (acc : Option Spending) (x b' : Spending)
    (h : pickLatest acc x = some b') :
    x.collectedAt ≤ b'.collectedAt ∧
    ∀ b, acc = some b → b.collectedAt ≤ b'.collectedAt := by
  cases acc with
  | none =>
    simp only [pickLatest, Option.some.injEq] at h
    subst h
    exact ⟨le_rfl, by simp⟩
  | some b =>
    simp only [pickLatest, Option.some.injEq] at h
    by_cases hbx : b.collectedAt < x.collectedAt
    · rw [if_pos hbx] at h
      subst h
      exact ⟨le_rfl, by intro c hc; injection hc with hc; rw [← hc]; omega⟩
    · rw [if_neg hbx] at h
      subst h
      exact ⟨by omega, by intro c hc; injection hc with hc; rw [← hc]⟩

/-- The accumulator step returns the new row or keeps the old accumulator. -/
theorem pickLatest_cases (acc : Option Spending) (x b' : Spending)
    (h : pickLatest acc x = some b') : b' = x ∨ acc = some b' := by
  cases acc with
  | none =>
    simp only [pickLatest, Option.some.injEq] at h
    exact Or.inl h.symm
  | some b =>
    simp only [pickLatest, Option.some.injEq] at h
    by_cases hbx : b.collectedAt < x.collectedAt
    · rw [if_pos hbx] at h
      exact Or.inl h.symm
    · rw [if_neg hbx] at h
      exact Or.inr (by rw [h])

/-- Folding `pickLatest` over an empty input from an empty accumulator
yields nothing; contrapositive form. -/
theorem foldl_pickLatest_none (l : List Spending) :
    ∀ acc, l.foldl pickLatest acc = none → l = [] ∧ acc = none := by
  induction l with
  | nil => intro acc h; exact ⟨rfl, h⟩
  | cons x tl ih =>
    intro acc h
    simp only [List.foldl_cons] at h
    obtain ⟨b, hb⟩ := pickLatest_isSome acc x
    obtain ⟨-, h2⟩ := ih (pickLatest acc x) h
    rw [hb] at h2
    exact absurd h2 (by simp)

/-- The fold result is a member of the list (or the starting accumulator)
and its collection timestamp dominates every list element and the starting
accumulator. -/
theorem foldl_pickLatest_spec (l : List Spending) :
    ∀ acc r', l.foldl pickLatest acc = some r' →
      (r' ∈ l ∨ acc = some r') ∧
      (∀ x ∈ l, x.collectedAt ≤ r'.collectedAt) ∧
      (∀ b, acc = some b → b.collectedAt ≤ r'.collectedAt) := by
  induction l with
  | nil =>
    intro acc r' h
    simp only [List.foldl_nil] at h
    refine ⟨Or.inr h, by simp, ?_⟩
    intro b hb
    rw [hb] at h
    injection h with h
    rw [h]
  | cons x tl ih =>
    intro acc r' h
    simp only [List.foldl_cons] at h
    obtain ⟨hmem, hmax, hacc⟩ := ih (pickLatest acc x) r' h
    obtain ⟨b'', hb''⟩ := pickLatest_isSome acc x
    have hb''le : b''.collectedAt ≤ r'.collectedAt := hacc b'' hb''
    obtain ⟨hxb, haccb⟩ := pickLatest_mono acc x b'' hb''
    refine ⟨?_, ?_, ?_⟩
    · rcases hmem with h1 | h1
      · exact Or.inl (List.mem_cons_of_mem _ h1)
      · rcases pickLatest_cases acc x r' h1 with h2 | h2
        · exact Or.inl (by rw [h2]; exact List.mem_cons_self _ _)
        · exact Or.inr h2
    · intro z hz
      rcases List.mem_cons.mp hz with h1 | h1
      · subst h1; omega
      · exact hmax z h1
    · intro b hb
      have := haccb b hb
      omega

/-- A row produced by `latestForKey` belongs to the input, carries the
requested key, and dominates the collection timestamp of every input row
with that key. -/
theorem latestForKey_spec (rows : List Spending) (o : Nat) (p : Int) (r' : Spending)
    (h : latestForKey rows o p = some r') :
    r' ∈ rows ∧ r'.adObjectId = o ∧ r'.periodStart = p ∧
    ∀ x ∈ rows, x.adObjectId = o → x.periodStart = p →
      x.collectedAt ≤ r'.collectedAt := by
  obtain ⟨hmem, hmax, -⟩ := foldl_pickLatest_spec _ none r' h
  rcases hmem with h1 | h1
  · have h2 := List.mem_filter.mp h1
    have h3 : r'.adObjectId = o ∧ r'.periodStart = p := by
      have := h2.2
      simp only [Bool.and_eq_true, beq_iff_eq] at this
      exact this
    refine ⟨h2.1, h3.1, h3.2, ?_⟩
    intro x hx hxo hxp
    exact hmax x (List.mem_filter.mpr ⟨hx, by simp [hxo, hxp]⟩)
  · exact absurd h1 (by simp)

/-- If some input row carries the key, `latestForKey` returns a row. -/
theorem latestForKey_isSome (rows : List Spending) (o : Nat) (p : Int) (r : Spending)
    (hr : r ∈ rows) (h1 : r.adObjectId = o) (h2 : r.periodStart = p) :
    ∃ r', latestForKey rows o p = some r' := by
  cases h : latestForKey rows o p with
  | some r' => exact ⟨r', rfl⟩
  | none =>
    obtain ⟨hnil, -⟩ := foldl_pickLatest_none _ none h
    have : r ∈ List.filter (fun r => r.adObjectId == o && r.periodStart == p) rows :=
      List.mem_filter.mpr ⟨hr, by simp [h1, h2]⟩
    rw [hnil] at this
    exact absurd this (by simp)

/-- When one row of the key strictly dominates every other row of the key,
`latestForKey` returns exactly that row. -/
theorem latestForKey_eq_of_strict_max (rows : List Spending) (o : Nat) (p : Int)
    (r2 : Spending) (hmem : r2 ∈ rows) (ho : r2.adObjectId = o)
    (hp : r2.periodStart = p)
    (hmax : ∀ x ∈ rows, x.adObjectId = o → x.periodStart = p → x ≠ r2 →
        x.collectedAt < r2.collectedAt) :
    latestForKey rows o p = some r2 := by
  obtain ⟨r', hr'⟩ := latestForKey_isSome rows o p r2 hmem ho hp
  obtain ⟨h1, h2, h3, h4⟩ := latestForKey_spec rows o p r' hr'
  by_cases heq : r' = r2
  · rw [heq] at hr'; exact hr'
  · have h5 := hmax r' h1 h2 h3 heq
    have h6 := h4 r2 hmem ho hp
    omega

/-- Filtering a `filterMap` over keys by a row predicate that mirrors a key
predicate commutes into filtering the key list. -/
theorem filter_filterMap_keys (f : Nat × Int → Option Spending)
    (pr : Spending → Bool) (pk : Nat × Int → Bool)
    (hpr : ∀ k r, f k = some r → pr r = pk k) :
    ∀ ks : List (Nat × Int), (ks.filterMap f).filter pr = (ks.filter pk).filterMap f := by
  intro ks
  induction ks with
  | nil => simp
  | cons k ks ih =>
    cases hk : f k with
    | none =>
      rw [List.filterMap_cons_none hk, List.filter_cons]
      by_cases hpk : pk k = true
      · rw [if_pos hpk, List.filterMap_cons_none hk]
        exact ih
      · rw [if_neg hpk]
        exact ih
    | some r =>
      have hmatch := hpr k r hk
      rw [List.filterMap_cons_some hk, List.filter_cons, List.filter_cons]
      by_cases hpk : pk k = true
      · rw [if_pos (by rw [hmatch]; exact hpk), if_pos hpk,
          List.filterMap_cons_some hk, ih]
      · rw [if_neg (by rw [hmatch]; exact hpk), if_neg hpk]
        exact ih

/-- In a duplicate-free key list, filtering for one key yields that key
exactly when present. -/
theorem filter_key_of_nodup (o : Nat) (p : Int) :
    ∀ ks : List (Nat × Int), ks.Nodup →
      ks.filter (fun k => k.1 == o && k.2 == p)
        = if (o, p) ∈ ks then [(o, p)] else [] := by
  intro ks
  induction ks with
  | nil => simp
  | cons a ks ih =>
    intro hnd
    rw [List.nodup_cons] at hnd
    obtain ⟨hna, hnd'⟩ := hnd
    rw [List.filter_cons]
    by_cases ha : a = (o, p)
    · subst ha
      rw [if_pos (by simp), ih hnd', if_neg hna,
        if_pos (List.mem_cons_self _ _)]
    · have hpa : (a.1 == o && a.2 == p) = false := by
        rcases a with ⟨a1, a2⟩
        simp only [Bool.and_eq_false_iff, beq_eq_false_iff_ne]
        by_cases h1 : a1 = o
        · subst h1
          exact Or.inr (fun h2 => ha (by rw [h2]))
        · exact Or.inl h1
      rw [if_neg (by simp [hpa]), ih hnd']
      by_cases hm : (o, p) ∈ ks
      · rw [if_pos hm, if_pos (List.mem_cons_of_mem _ hm)]
      · rw [if_neg hm, if_neg ?hna2]
        case hna2 =>
          intro h
          rcases List.mem_cons.mp h with h1 | h1
          · exact ha h1.symm
          · exact hm h1

/-- A key appears among `spendingKeys rows` exactly when some row carries
it. -/
theorem mem_spendingKeys (rows : List Spending) (o : Nat) (p : Int) :
    (o, p) ∈ spendingKeys rows ↔
      ∃ r ∈ rows, r.adObjectId = o ∧ r.periodStart = p := by
  unfold spendingKeys
  rw [List.mem_dedup, List.mem_map]
  constructor
  · rintro ⟨r, hr, hk⟩
    injection hk with h1 h2
    exact ⟨r, hr, h1, h2⟩
  · rintro ⟨r, hr, h1, h2⟩
    exact ⟨r, hr, by rw [h1, h2]⟩

/-- The rows of the latest-spendings subquery carrying one particular key:
exactly the max-timestamp row of that key among the window rows, when the
key occurs at all. -/
theorem latest_filter_key (s e : Int) (rows : List Spending) (o : Nat) (p : Int) :
    (latestSpendingsSubquery s e rows).filter
        (fun r => r.adObjectId == o && r.periodStart == p)
      = (latestForKey (rows.filter (inWindow s e)) o p).toList := by
  unfold latestSpendingsSubquery
  rw [filter_filterMap_keys _ _ (fun k => k.1 == o && k.2 == p) ?hpr]
  case hpr =>
    intro k r hk
    obtain ⟨-, h1, h2, -⟩ := latestForKey_spec _ k.1 k.2 r hk
    simp [h1, h2]
  have hnd : (spendingKeys (rows.filter (inWindow s e))).Nodup := by
    unfold spendingKeys
    exact List.nodup_dedup _
  rw [filter_key_of_nodup o p _ hnd]
  by_cases hmem : (o, p) ∈ spendingKeys (rows.filter (inWindow s e))
  · rw [if_pos hmem]
    obtain ⟨r, hr, h1, h2⟩ := (mem_spendingKeys _ o p).mp hmem
    obtain ⟨r', hr'⟩ := latestForKey_isSome _ o p r hr h1 h2
    simp [hr']
  · rw [if_neg hmem]
    cases hk : latestForKey (rows.filter (inWindow s e)) o p with
    | none => simp
    | some r' =>
      obtain ⟨h1, h2, h3, -⟩ := latestForKey_spec _ o p r' hk
      exact absurd ((mem_spendingKeys _ o p).mpr ⟨r', h1, h2, h3⟩) hmem

/-- Every row of the latest-spendings subquery is an input row that lies in
the window. -/
theorem latest_mem_window (s e : Int) (rows : List Spending) (r' : Spending)
    (h : r' ∈ latestSpendingsSubquery s e rows) :
    r' ∈ rows ∧ inWindow s e r' = true := by
  unfold latestSpendingsSubquery at h
  obtain ⟨k, -, hk⟩ := List.mem_filterMap.mp h
  obtain ⟨h1, -, -, -⟩ := latestForKey_spec _ k.1 k.2 r' hk
  exact ⟨(List.mem_filter.mp h1).1, (List.mem_filter.mp h1).2⟩

/-- C1: for every (hierarchy object, period) key, the aggregation read path
resolves the current value as the fact with the maximum collection
timestamp among the window rows of that key: when one row strictly
dominates all others of its key, the subquery emits exactly that row for
the key, so any aggregate over the key equals exactly that row's amount —
never an older amount and never a sum of revisions. -/
theorem C1_latest_wins (s e : Int) (rows : List Spending) (o : Nat) (p : Int)
    (r2 : Spending) (hmem : r2 ∈ rows) (hwin : inWindow s e r2 = true)
    (ho : r2.adObjectId = o) (hp : r2.periodStart = p)
    (hmax : ∀ x ∈ rows, inWindow s e x = true → x.adObjectId = o →
        x.periodStart = p → x ≠ r2 → x.collectedAt < r2.collectedAt) :
    (latestSpendingsSubquery s e rows).filter
        (fun r => r.adObjectId == o && r.periodStart == p) = [r2] ∧
    (((latestSpendingsSubquery s e rows).filter
        (fun r => r.adObjectId == o && r.periodStart == p)).map
        Spending.amountCents).sum = r2.amountCents := by
  have h1 : latestForKey (rows.filter (inWindow s e)) o p = some r2 := by
    apply latestForKey_eq_of_strict_max _ o p r2
      (List.mem_filter.mpr ⟨hmem, hwin⟩) ho hp
    intro x hx
    have h2 := List.mem_filter.mp hx
    exact hmax x h2.1 h2.2
  have h2 := latest_filter_key s e rows o p
  rw [h1] at h2
  simp only [Option.toList_some] at h2
  exact ⟨h2, by rw [h2]; simp⟩

/-- Witness for C1: two facts for the same key collected at ticks 1 and 2
with amounts 100 and 250; the read path returns exactly the amount 250. -/
theorem C1_latest_wins_witness :
    (latestSpendingsSubquery 0 0
        [⟨1, 1, 0, 100, 0, 0, 0⟩, ⟨1, 2, 0, 250, 0, 0, 0⟩]).filter
        (fun r => r.adObjectId == 1 && r.periodStart == 0)
      = [⟨1, 2, 0, 250, 0, 0, 0⟩] ∧
    (((latestSpendingsSubquery 0 0
        [⟨1, 1, 0, 100, 0, 0, 0⟩, ⟨1, 2, 0, 250, 0, 0, 0⟩]).filter
        (fun r => r.adObjectId == 1 && r.periodStart == 0)).map
        Spending.amountCents).sum = 250 :=
  C1_latest_wins 0 0 [⟨1, 1, 0, 100, 0, 0, 0⟩, ⟨1, 2, 0, 250, 0, 0, 0⟩]
    1 0 ⟨1, 2, 0, 250, 0, 0, 0⟩ (by decide) (by decide) (by decide) (by decide)
    (by decide)

/-- C10: the reporting window of the ledger reads is end-inclusive at day
granularity: every row the subquery returns has `startDate ≤ periodStart ≤
endDate`, and a fact whose period start falls exactly on the end date is
represented in the output (a row for its key is returned), while any fact
on a later day is excluded by the first part. -/
theorem C10_inclusive_end (s e : Int) (rows : List Spending) :
    (∀ r ∈ latestSpendingsSubquery s e rows,
        s ≤ r.periodStart ∧ r.periodStart ≤ e) ∧
    (∀ r ∈ rows, r.periodStart = e → s ≤ e →
        ∃ r' ∈ latestSpendingsSubquery s e rows,
          r'.adObjectId = r.adObjectId ∧ r'.periodStart = e) := by
  constructor
  · intro r hr
    obtain ⟨-, hwin⟩ := latest_mem_window s e rows r hr
    unfold inWindow at hwin
    simp only [Bool.and_eq_true, decide_eq_true_eq] at hwin
    omega
  · intro r hr hpe hse
    have hwin : inWindow s e r = true := by
      unfold inWindow
      simp only [Bool.and_eq_true, decide_eq_true_eq]
      omega
    have hrw : r ∈ rows.filter (inWindow s e) := List.mem_filter.mpr ⟨hr, hwin⟩
    obtain ⟨r', hr'⟩ := latestForKey_isSome _ r.adObjectId r.periodStart r hrw rfl rfl
    obtain ⟨h1, h2, h3, -⟩ := latestForKey_spec _ r.adObjectId r.periodStart r' hr'
    refine ⟨r', ?_, h2, by rw [h3, hpe]⟩
    unfold latestSpendingsSubquery
    apply List.mem_filterMap.mpr
    refine ⟨(r.adObjectId, r.periodStart), ?_, hr'⟩
    exact (mem_spendingKeys _ _ _).mpr ⟨r, hrw, rfl, rfl⟩

/-- Witness for C10: with window 0..5, a fact on day 5 is kept and a fact
on day 6 is dropped; the boundary fact's bounds follow from the theorem. -/
theorem C10_inclusive_end_witness :
    latestSpendingsSubquery 0 5 [⟨1, 1, 5, 70, 0, 0, 0⟩, ⟨2, 1, 6, 80, 0, 0, 0⟩]
      = [⟨1, 1, 5, 70, 0, 0, 0⟩] ∧
    (0 ≤ (5 : Int) ∧ (5 : Int) ≤ 5) :=
  ⟨by decide,
    (C10_inclusive_end 0 5 [⟨1, 1, 5, 70, 0, 0, 0⟩, ⟨2, 1, 6, 80, 0, 0, 0⟩]).1
      ⟨1, 1, 5, 70, 0, 0, 0⟩ (by decide)⟩

/-- The three hierarchy levels of an ad object
(`packages/database/src/schema`, enum `ad_object_type`). -/
inductive ObjType
  | CAMPAIGN
  | AD_SET
  | AD
deriving DecidableEq, Repr

/-- One row of the `ad_objects` dimension table: surrogate `id`, owning
account, natural `externalId` (unique per account), hierarchy level, display
name, status, and nullable parent reference (surrogate id of the parent). -/
structure AdObjectRow where
  id : Nat
  adAccountId : Nat
  externalId : String
  type : ObjType
  name : String
  status : String
  parentId : Option Nat
deriving DecidableEq, Repr

/-- Embedding of the spend aggregate of `getAccountsWithSpending`
(`packages/database/src/queries:151`) for one account: join the account's
AD-level objects (`LEFT JOIN ad_objects ON ad_account_id = accounts.id AND
type = 'AD'`) against the latest-spendings subquery rows on
`ad_object_id`, and sum `amount_cents` (with `COALESCE` making an empty
join contribute 0). -/
def getAccountsWithSpendingTotal (objects : List AdObjectRow) (accountId : Nat)
    (startDate endDate : Int) (rows : List Spending) : Int :=
  ((objects.filter fun o => o.adAccountId == accountId && o.type == ObjType.AD).map
    fun o => (((latestSpendingsSubquery startDate endDate rows).filter
        fun r => r.adObjectId == o.id).map Spending.amountCents).sum).sum

/-- A ledger row belongs to a leaf (AD-level) object of the account. -/
def isLeafFactOf (objects : List AdObjectRow) (accountId : Nat) (r : Spending) : Bool :=
  objects.any fun o =>
    o.id == r.adObjectId && o.type == ObjType.AD && o.adAccountId == accountId

/-- Summing over a disjunction of disjoint row predicates splits the sum. -/
theorem sum_filter_or (p q : Spending → Bool)
    (h : ∀ r, ¬(p r = true ∧ q r = true)) :
    ∀ L : List Spending,
      ((L.filter fun r => p r || q r).map Spending.amountCents).sum
        = ((L.filter p).map Spending.amountCents).sum
          + ((L.filter q).map Spending.amountCents).sum := by
  intro L
  induction L with
  | nil => simp
  | cons r L ih =>
    cases hp : p r with
    | true =>
      have hq : q r = false := by
        cases hq : q r with
        | true => exact absurd ⟨hp, hq⟩ (h r)
        | false => rfl
      simp only [List.filter_cons, hp, hq, Bool.true_or, if_pos, List.map_cons,
        List.sum_cons, Bool.false_eq_true, if_neg, not_false_iff]
      rw [ih]
      ring
    | false =>
      cases hq : q r with
      | true =>
        simp only [List.filter_cons, hp, hq, Bool.false_or, if_pos, List.map_cons,
          List.sum_cons, Bool.false_eq_true, if_neg, not_false_iff]
        rw [ih]
        ring
      | false =>
        simp only [List.filter_cons, hp, hq, Bool.false_or, Bool.false_eq_true,
          if_neg, not_false_iff]
        exact ih

/-- Summing per-object sums over duplicate-free object ids equals one sum
over the rows belonging to any of those ids. -/
theorem sum_by_ids (L : List Spending) :
    ∀ ids : List Nat, ids.Nodup →
      ((ids.map fun i =>
          ((L.filter fun r => r.adObjectId == i).map Spending.amountCents).sum).sum)
        = ((L.filter fun r => ids.contains r.adObjectId).map
            Spending.amountCents).sum := by
  intro ids
  induction ids with
  | nil => simp
  | cons i ids ih =>
    intro hnd
    rw [List.nodup_cons] at hnd
    obtain ⟨hni, hnd'⟩ := hnd
    have hdisj : ∀ r : Spending,
        ¬((r.adObjectId == i) = true ∧ (ids.contains r.adObjectId) = true) := by
      rintro r ⟨h1, h2⟩
      rw [beq_iff_eq] at h1
      rw [h1] at h2
      exact hni (by simpa using h2)
    have hsplit := sum_filter_or (fun r => r.adObjectId == i)
      (fun r => ids.contains r.adObjectId) hdisj L
    have hcontains : (L.filter fun r => (i :: ids).contains r.adObjectId)
        = (L.filter fun r => (r.adObjectId == i) || ids.contains r.adObjectId) := by
      apply List.filter_congr
      intro r _
      rfl
    rw [List.map_cons, List.sum_cons, ih hnd', hcontains, hsplit]

/-- Deduplicating an appended list and then filtering by a predicate that
rejects every element of the appended part is the same as filtering the
deduplicated first part. -/
theorem dedup_append_filter {α : Type} [DecidableEq α] (p : α → Bool) :
    ∀ l1 l2 : List α, (∀ a ∈ l2, p a = false) →
      ((l1 ++ l2).dedup).filter p = (l1.dedup).filter p := by
  intro l1
  induction l1 with
  | nil =>
    intro l2 h
    simp only [List.nil_append, List.dedup_nil, List.filter_nil]
    rw [List.filter_eq_nil_iff]
    intro a ha
    simp [h a (List.mem_dedup.mp ha)]
  | cons x l1 ih =>
    intro l2 h
    rw [List.cons_append]
    by_cases hmem : x ∈ l1 ++ l2
    · rw [List.dedup_cons_of_mem hmem, ih l2 h]
      rcases List.mem_append.mp hmem with h1 | h1
      · rw [List.dedup_cons_of_mem h1]
      · by_cases h2 : x ∈ l1
        · rw [List.dedup_cons_of_mem h2]
        · rw [List.dedup_cons_of_not_mem h2, List.filter_cons,
            if_neg (by simp [h x h1])]
    · have h2 : x ∉ l1 := fun hx => hmem (List.mem_append.mpr (Or.inl hx))
      rw [List.dedup_cons_of_not_mem hmem, List.dedup_cons_of_not_mem h2,
        List.filter_cons, List.filter_cons]
      by_cases hp : p x = true
      · rw [if_pos hp, if_pos hp, ih l2 h]
      · rw [if_neg hp, if_neg hp]
        exact ih l2 h

/-- Appending rows whose object ids avoid `oid` does not change the
latest-spendings rows attributed to `oid`. -/
theorem latest_filter_obj_append (s e : Int) (rows extra : List Spending) (oid : Nat)
    (hx : ∀ x ∈ extra, x.adObjectId ≠ oid) :
    (latestSpendingsSubquery s e (rows ++ extra)).filter
        (fun r => r.adObjectId == oid)
      = (latestSpendingsSubquery s e rows).filter (fun r => r.adObjectId == oid) := by
  unfold latestSpendingsSubquery
  have hkey1 : ∀ (w : List Spending) (k : Nat × Int) (r : Spending),
      latestForKey w k.1 k.2 = some r →
        ((r.adObjectId == oid) = (k.1 == oid)) := by
    intro w k r hk
    obtain ⟨-, h1, -, -⟩ := latestForKey_spec _ k.1 k.2 r hk
    rw [h1]
  rw [filter_filterMap_keys _ _ (fun k => k.1 == oid) (hkey1 _),
    filter_filterMap_keys _ _ (fun k => k.1 == oid) (hkey1 _)]
  have hw2 : (rows ++ extra).filter (inWindow s e)
      = rows.filter (inWindow s e) ++ extra.filter (inWindow s e) :=
    List.filter_append _ _
  have hxw : ∀ x ∈ extra.filter (inWindow s e), x.adObjectId ≠ oid :=
    fun x hxm => hx x (List.mem_filter.mp hxm).1
  -- the key lists filtered to oid agree
  have hkeys : (spendingKeys ((rows ++ extra).filter (inWindow s e))).filter
      (fun k => k.1 == oid)
      = (spendingKeys (rows.filter (inWindow s e))).filter (fun k => k.1 == oid) := by
    unfold spendingKeys
    rw [hw2, List.map_append]
    apply dedup_append_filter
    intro k hk
    obtain ⟨x, hxm, hxk⟩ := List.mem_map.mp hk
    have : k.1 = x.adObjectId := by rw [← hxk]
    rw [beq_eq_false_iff_ne]
    rw [this]
    exact hxw x hxm
  rw [hkeys]
  -- on keys with first component oid the two latestForKey computations agree
  apply List.filterMap_congr
  intro k hk
  have hk1 : k.1 = oid := by
    have := (List.mem_filter.mp hk).2
    simpa using this
  unfold latestForKey
  congr 1
  rw [hw2, List.filter_append]
  have hnilf : List.filter (fun r => r.adObjectId == k.1 && r.periodStart == k.2)
      (extra.filter (inWindow s e)) = [] := by
    rw [List.filter_eq_nil_iff]
    intro x hxm
    simp only [Bool.and_eq_true, beq_iff_eq, not_and]
    intro h1
    exact absurd (h1.trans hk1) (hxw x hxm)
  rw [hnilf, List.append_nil]

/-- Bool equality follows from the equivalence of truth. -/
theorem bool_eq_of_iff {a b : Bool} (h : a = true ↔ b = true) : a = b := by
  cases a <;> cases b <;> simp_all

/-- C4: for every account and window, the rollup total of
`getAccountsWithSpending` equals the sum of current facts attributed only
to leaf-level (AD) objects of the account, and appending facts recorded on
campaign-level or ad-set-level objects leaves the account total unchanged
even when the same budget's spend is present at all three levels. -/
theorem C4_leaf_only_rollup (objects : List AdObjectRow) (accountId : Nat)
    (s e : Int) (rows : List Spending)
    (hids : (objects.map AdObjectRow.id).Nodup) :
    (getAccountsWithSpendingTotal objects accountId s e rows
      = (((latestSpendingsSubquery s e rows).filter
          (isLeafFactOf objects accountId)).map Spending.amountCents).sum) ∧
    (∀ extra : List Spending,
      (∀ x ∈ extra, ∃ o ∈ objects, o.id = x.adObjectId ∧ o.type ≠ ObjType.AD) →
      getAccountsWithSpendingTotal objects accountId s e (rows ++ extra)
        = getAccountsWithSpendingTotal objects accountId s e rows) := by
  have hnd2 : ((objects.filter
      fun o => o.adAccountId == accountId && o.type == ObjType.AD).map
      AdObjectRow.id).Nodup :=
    ((List.filter_sublist objects).map AdObjectRow.id).nodup hids
  constructor
  · unfold getAccountsWithSpendingTotal
    have hmapmap : (objects.filter
        fun o => o.adAccountId == accountId && o.type == ObjType.AD).map
        (fun o => (((latestSpendingsSubquery s e rows).filter
          fun r => r.adObjectId == o.id).map Spending.amountCents).sum)
        = ((objects.filter
            fun o => o.adAccountId == accountId && o.type == ObjType.AD).map
            AdObjectRow.id).map
          (fun i => (((latestSpendingsSubquery s e rows).filter
            fun r => r.adObjectId == i).map Spending.amountCents).sum) := by
      rw [List.map_map]
      rfl
    rw [hmapmap, sum_by_ids _ _ hnd2]
    have hpt : ∀ r ∈ latestSpendingsSubquery s e rows,
        (((objects.filter
          fun o => o.adAccountId == accountId && o.type == ObjType.AD).map
          AdObjectRow.id).contains r.adObjectId)
          = isLeafFactOf objects accountId r := by
      intro r _
      apply bool_eq_of_iff
      unfold isLeafFactOf
      rw [List.contains_iff_exists_mem_beq, List.any_eq_true]
      constructor
      · rintro ⟨i, hi, hbeq⟩
        obtain ⟨o, ho, hoid⟩ := List.mem_map.mp hi
        obtain ⟨hom, hopred⟩ := List.mem_filter.mp ho
        refine ⟨o, hom, ?_⟩
        simp only [Bool.and_eq_true, beq_iff_eq] at hopred ⊢
        rw [beq_iff_eq] at hbeq
        exact ⟨⟨by rw [hoid, hbeq], hopred.2⟩, hopred.1⟩
      · rintro ⟨o, hom, hco⟩
        simp only [Bool.and_eq_true, beq_iff_eq] at hco
        refine ⟨o.id, List.mem_map.mpr ⟨o, List.mem_filter.mpr
          ⟨hom, by simp [hco.1.2, hco.2]⟩, rfl⟩, ?_⟩
        rw [beq_iff_eq]
        exact hco.1.1.symm
    rw [List.filter_congr hpt]
  · intro extra hextra
    unfold getAccountsWithSpendingTotal
    apply congrArg List.sum
    apply List.map_congr_left
    intro o ho
    obtain ⟨hom, hopred⟩ := List.mem_filter.mp ho
    simp only [Bool.and_eq_true, beq_iff_eq] at hopred
    apply congrArg List.sum
    apply congrArg (List.map Spending.amountCents)
    apply latest_filter_obj_append s e rows extra o.id
    intro x hx heq
    obtain ⟨o', ho', hid, htype⟩ := hextra x hx
    have hoo : o' = o :=
      List.inj_on_of_nodup_map hids ho' hom (by rw [hid, heq])
    rw [hoo] at htype
    exact htype hopred.2

/-- Witness for C4: spend of 500 recorded at campaign, ad-set and ad level
for account 7; the account total is 500 (the ad-level fact only), and the
campaign/ad-set facts alone change nothing over the ad-level fact. -/
theorem C4_leaf_only_rollup_witness :
    getAccountsWithSpendingTotal
      [⟨1, 7, "c1", ObjType.CAMPAIGN, "c", "ACTIVE", none⟩,
       ⟨2, 7, "s1", ObjType.AD_SET, "s", "ACTIVE", some 1⟩,
       ⟨3, 7, "a1", ObjType.AD, "a", "ACTIVE", some 2⟩] 7 0 0
      [⟨3, 1, 0, 500, 0, 0, 0⟩, ⟨1, 1, 0, 500, 0, 0, 0⟩, ⟨2, 1, 0, 500, 0, 0, 0⟩]
      = 500 ∧
    getAccountsWithSpendingTotal
      [⟨1, 7, "c1", ObjType.CAMPAIGN, "c", "ACTIVE", none⟩,
       ⟨2, 7, "s1", ObjType.AD_SET, "s", "ACTIVE", some 1⟩,
       ⟨3, 7, "a1", ObjType.AD, "a", "ACTIVE", some 2⟩] 7 0 0
      ([⟨3, 1, 0, 500, 0, 0, 0⟩] ++ [⟨1, 1, 0, 500, 0, 0, 0⟩, ⟨2, 1, 0, 500, 0, 0, 0⟩])
      = getAccountsWithSpendingTotal
      [⟨1, 7, "c1", ObjType.CAMPAIGN, "c", "ACTIVE", none⟩,
       ⟨2, 7, "s1", ObjType.AD_SET, "s", "ACTIVE", some 1⟩,
       ⟨3, 7, "a1", ObjType.AD, "a", "ACTIVE", some 2⟩] 7 0 0
      [⟨3, 1, 0, 500, 0, 0, 0⟩] :=
  ⟨by decide,
    (C4_leaf_only_rollup
      [⟨1, 7, "c1", ObjType.CAMPAIGN, "c", "ACTIVE", none⟩,
       ⟨2, 7, "s1", ObjType.AD_SET, "s", "ACTIVE", some 1⟩,
       ⟨3, 7, "a1", ObjType.AD, "a", "ACTIVE", some 2⟩] 7 0 0
      [⟨3, 1, 0, 500, 0, 0, 0⟩] (by decide)).2
      [⟨1, 1, 0, 500, 0, 0, 0⟩, ⟨2, 1, 0, 500, 0, 0, 0⟩] (by decide)⟩

/-- Division over ℚ guarded against a zero denominator, returning `none`
where JS division would produce NaN or Infinity.  Used to show the derived
metric computations of `getObjectsWithSpending` never reach a zero
denominator. -/
def divOpt (a b : ℚ) : Option ℚ :=
  if b = 0 then none else some (a / b)

/-- The click-through-rate expression of the `getObjectsWithSpending` row
mapping (`packages/database/src/queries:297`):
`impressions > 0 ? (clicks / impressions) * 100 : 0`. -/
def derivedCtr (impressions clicks : Int) : Option ℚ :=
  if 0 < impressions then
    (divOpt (clicks : ℚ) (impressions : ℚ)).map fun q => q * 100
  else some 0

/-- The cost-per-click expression (`queries:298`):
`clicks > 0 ? spendCents / clicks / 100 : 0`. -/
def derivedCpc (spendCents clicks : Int) : Option ℚ :=
  if 0 < clicks then
    (divOpt (spendCents : ℚ) (clicks : ℚ)).bind fun q => divOpt q 100
  else some 0

/-- The cost-per-mille expression (`queries:299`):
`impressions > 0 ? ((spendCents / impressions) * 1000) / 100 : 0`. -/
def derivedCpm (spendCents impressions : Int) : Option ℚ :=
  if 0 < impressions then
    (divOpt (spendCents : ℚ) (impressions : ℚ)).bind fun q => divOpt (q * 1000) 100
  else some 0

/-- C8: the derived ratios of the object listing are always defined (no
division ever sees a zero denominator, hence no NaN, Infinity or thrown
error), and an object with zero impressions and zero clicks reports
CTR = 0, CPC = 0 and CPM = 0. -/
theorem C8_zero_denominator_guard (spendCents impressions clicks : Int) :
    (∃ x, derivedCtr impressions clicks = some x) ∧
    (∃ y, derivedCpc spendCents clicks = some y) ∧
    (∃ z, derivedCpm spendCents impressions = some z) ∧
    (impressions = 0 → clicks = 0 →
      derivedCtr impressions clicks = some 0 ∧
      derivedCpc spendCents clicks = some 0 ∧
      derivedCpm spendCents impressions = some 0) := by
  have himp : 0 < impressions → ((impressions : ℚ) ≠ 0) := by
    intro h
    exact_mod_cast (by omega : impressions ≠ 0)
  have hclk : 0 < clicks → ((clicks : ℚ) ≠ 0) := by
    intro h
    exact_mod_cast (by omega : clicks ≠ 0)
  have h100 : (100 : ℚ) ≠ 0 := by norm_num
  refine ⟨?_, ?_, ?_, ?_⟩
  · by_cases h : 0 < impressions
    · exact ⟨(clicks : ℚ) / (impressions : ℚ) * 100, by
        unfold derivedCtr divOpt
        rw [if_pos h, if_neg (himp h)]
        rfl⟩
    · exact ⟨0, by unfold derivedCtr; rw [if_neg h]⟩
  · by_cases h : 0 < clicks
    · exact ⟨(spendCents : ℚ) / (clicks : ℚ) / 100, by
        unfold derivedCpc divOpt
        rw [if_pos h, if_neg (hclk h)]
        simp only [Option.some_bind]
        rw [if_neg h100]⟩
    · exact ⟨0, by unfold derivedCpc; rw [if_neg h]⟩
  · by_cases h : 0 < impressions
    · exact ⟨(spendCents : ℚ) / (impressions : ℚ) * 1000 / 100, by
        unfold derivedCpm divOpt
        rw [if_pos h, if_neg (himp h)]
        simp only [Option.some_bind]
        rw [if_neg h100]⟩
    · exact ⟨0, by unfold derivedCpm; rw [if_neg h]⟩
  · intro hi hc
    refine ⟨?_, ?_, ?_⟩
    · unfold derivedCtr
      rw [if_neg (by omega)]
    · unfold derivedCpc
      rw [if_neg (by omega)]
    · unfold derivedCpm
      rw [if_neg (by omega)]

/-- Witness for C8 at an object with 0 spend, 0 impressions, 0 clicks. -/
theorem C8_zero_denominator_guard_witness :
    derivedCtr 0 0 = some 0 ∧ derivedCpc 0 0 = some 0 ∧ derivedCpm 0 0 = some 0 :=
  (C8_zero_denominator_guard 0 0 0).2.2.2 rfl rfl

/-- A nonnegative decimal numeral, as the remote API reports `spend`:
an integer part and a list of fraction digits. -/
structure DecimalString where
  intPart : Nat
  fracDigits : List Nat
deriving DecidableEq, Repr

/-- Value of the fraction digits: fold of digit/10 scaling. -/
def fracValue : List Nat → ℚ
  | [] => 0
  | d :: ds => ((d : ℚ) + fracValue ds) / 10

/-- Numeric value of a decimal numeral; models `parseFloat` on the numeral
exactly (over ℚ; binary-float rounding is below one cent at the magnitudes
the claim concerns). -/
def DecimalString.value (s : DecimalString) : ℚ :=
  (s.intPart : ℚ) + fracValue s.fracDigits

/-- JS `Math.round(x)`: the floor of x + 1/2 (half always rounds up). -/
def jsRound (q : ℚ) : Int :=
  ⌊q + 1 / 2⌋

/-- The amount normalization of `batchUpsertSpendings`
(`apps/worker/src/services/meta-syncer.ts:432`):
`BigInt(Math.round(parseFloat(insight.spend || '0') * 100))`; a missing
spend string falls back to '0'. -/
def spendAmountCents (spend : Option DecimalString) : Int :=
  jsRound (((spend.map DecimalString.value).getD 0) * 100)

/-- Rounding an integer value is the identity. -/
theorem jsRound_intCast (m : Int) : jsRound (m : ℚ) = m := by
  unfold jsRound
  rw [add_comm, Int.floor_add_int]
  norm_num

/-- C9: the monetary normalization is a deterministic rounding rule: equal
spend strings yield equal integer amounts, an exact two-decimal numeral
n.d1d2 yields exactly 100n + 10d1 + d2 minor units (so "12.34" yields
1234), and a missing spend yields 0. -/
theorem C9_money_normalization :
    (spendAmountCents none = 0) ∧
    (∀ s1 s2 : Option DecimalString, s1 = s2 →
        spendAmountCents s1 = spendAmountCents s2) ∧
    (∀ n d1 d2 : Nat, spendAmountCents (some ⟨n, [d1, d2]⟩)
        = (n : Int) * 100 + (d1 : Int) * 10 + (d2 : Int)) ∧
    (spendAmountCents (some ⟨12, [3, 4]⟩) = 1234) := by
  have hgen : ∀ n d1 d2 : Nat, spendAmountCents (some ⟨n, [d1, d2]⟩)
      = (n : Int) * 100 + (d1 : Int) * 10 + (d2 : Int) := by
    intro n d1 d2
    unfold spendAmountCents
    have hval : (Option.map DecimalString.value (some ⟨n, [d1, d2]⟩)).getD 0 * 100
        = ((((n : Int) * 100 + (d1 : Int) * 10 + (d2 : Int)) : Int) : ℚ) := by
      simp only [Option.map_some', Option.getD_some, DecimalString.value, fracValue]
      push_cast
      ring
    rw [hval, jsRound_intCast]
  refine ⟨?_, fun s1 s2 h => by rw [h], hgen, ?_⟩
  · unfold spendAmountCents jsRound
    norm_num
  · rw [hgen 12 3 4]
    norm_num

/-- Witness for C9: determinism applied at the spec's example "12.34",
together with its concrete value. -/
theorem C9_money_normalization_witness :
    spendAmountCents (some ⟨12, [3, 4]⟩) = spendAmountCents (some ⟨12, [3, 4]⟩) ∧
    spendAmountCents (some ⟨5, [0, 7]⟩) = 507 ∧
    spendAmountCents none = 0 :=
  ⟨C9_money_normalization.2.1 _ _ rfl,
    (C9_money_normalization.2.2.1 5 0 7).trans (by decide),
    C9_money_normalization.1⟩

/-- Embedding of `formatDateInTimezone(date, timezone)`
(`apps/worker/src/lib/timezone.ts`): `date.toLocaleDateString('en-CA',
{ timeZone })` renders the calendar date of the instant in the named zone.
Instants are minutes since the epoch, a day is 1440 minutes, and an IANA
zone is modelled by its UTC offset in minutes, so the rendered calendar
day is the floor of the zone-shifted instant over one day (Int division
here is Euclidean, i.e. floor division for a positive divisor). -/
def formatDateInTimezone (tMinutes offsetMinutes : Int) : Int :=
  (tMinutes + offsetMinutes) / 1440

/-- The `time_range` values computed by `fetchAllInsights`
(`apps/worker/src/services/meta-syncer.ts:215`): `since` and `until` are
the window endpoints rendered by `formatDateInTimezone(date,
accountTimezone)`, where `accountTimezone` is the ad account's
`timezone_name` passed down from `sync()` (meta-syncer.ts:66). -/
structure InsightsTimeRange where
  sinceDay : Int
  untilDay : Int
deriving DecidableEq, Repr

/-- Request-boundary computation of `fetchAllInsights` for an account whose
reporting timezone has the given UTC offset. -/
def fetchAllInsightsTimeRange (accountTzOffsetMinutes startDate endDate : Int) :
    InsightsTimeRange :=
  { sinceDay := formatDateInTimezone startDate accountTzOffsetMinutes
    untilDay := formatDateInTimezone endDate accountTzOffsetMinutes }

/-- C7: the performance-row fetch window is computed in the account's own
reporting timezone: both request boundaries are the calendar dates of the
window endpoints under the account's offset; for an account at UTC-3
(offset -180) a UTC-midnight instant of day D renders as day D - 1 (the
boundary shifts by the account's offset), while under UTC it renders as D.
The concrete conjunct mirrors the repository's own timezone unit test
(midnight UTC of Dec 27 renders as Dec 26 at UTC-3). -/
theorem C7_account_timezone_boundaries (off s e : Int) :
    (fetchAllInsightsTimeRange off s e
      = ⟨formatDateInTimezone s off, formatDateInTimezone e off⟩) ∧
    (∀ D : Int, formatDateInTimezone (1440 * D) (-180) = D - 1) ∧
    (∀ D : Int, formatDateInTimezone (1440 * D) 0 = D) ∧
    (formatDateInTimezone (1440 * ((Date.mk 4 11 27).dayNumber : Int)) (-180)
      = ((Date.mk 4 11 26).dayNumber : Int)) := by
  refine ⟨rfl, ?_, ?_, by decide⟩
  · intro D
    unfold formatDateInTimezone
    omega
  · intro D
    unfold formatDateInTimezone
    omega

/-- A persisted graphile-worker job row as created by one
`utils.addJob(taskIdentifier, payload, spec)` call: the worker assigns the
id; `queueName` is the serialization key of the TaskSpec and stays empty
when the caller passes none. -/
structure JobRecord where
  id : Nat
  taskIdentifier : String
  startDate : Int
  endDate : Int
  priority : Int
  queueName : Option String
deriving DecidableEq, Repr

/-- The durable job store behind `graphile_worker`. -/
structure QueueDB where
  jobs : List JobRecord
  nextId : Nat
deriving DecidableEq, Repr

/-- One `utils.addJob('sync_meta_ads', payload, { priority: i })` call of
`queue.addJobs` (`apps/api/src/lib/queue.ts:44`): a single independent
insert; the TaskSpec carries only a priority, so the row is recorded with
no queue name (no serialization key). -/
def utilsAddJob (db : QueueDB) (task : String) (payload : Int × Int)
    (priority : Int) : QueueDB × Nat :=
  ({ jobs := db.jobs ++ [⟨db.nextId, task, payload.1, payload.2, priority, none⟩],
     nextId := db.nextId + 1 }, db.nextId)

/-- The `queue.addJobs` loop (`apps/api/src/lib/queue.ts:37`): iterate over
the batch, awaiting one `utils.addJob` per job with `priority: i`.  There
is no enclosing transaction: `failsAt i = true` models the i-th insert
failing, which aborts the loop and propagates the error while the rows
inserted by earlier iterations stay persisted. -/
def addJobsLoop (failsAt : Nat → Bool) :
    QueueDB → Nat → List (Int × Int) → QueueDB × Option (List Nat)
  | db, _, [] => (db, some [])
  | db, i, j :: rest =>
    if failsAt i then (db, none)
    else
      let r := utilsAddJob db "sync_meta_ads" j (Int.ofNat i)
      match addJobsLoop failsAt r.1 (i + 1) rest with
      | (db', some ids) => (db', some (r.2 :: ids))
      | (db', none) => (db', none)

/-- Embedding of `queue.addJobs(jobs)` with injectable insert failures. -/
def addJobs (db : QueueDB) (jobs : List (Int × Int)) (failsAt : Nat → Bool) :
    QueueDB × Option (List Nat) :=
  addJobsLoop failsAt db 0 jobs

/-- C3 evaluation: the claim asserts batch enqueue is atomic, but the code
inserts jobs one-by-one with no transaction; submitting a 3-chunk batch
whose 2nd insert fails reports the failure yet leaves exactly 1 job
persisted, not 0. -/
theorem C3_batch_enqueue_partial_on_failure :
    ((addJobs ⟨[], 0⟩ [(0, 0), (1, 1), (2, 2)] (fun i => i == 1)).2 = none) ∧
    ((addJobs ⟨[], 0⟩ [(0, 0), (1, 1), (2, 2)] (fun i => i == 1)).1.jobs.length = 1) ∧
    ((addJobs ⟨[], 0⟩ [(0, 0), (1, 1), (2, 2)] (fun i => i == 1)).1.jobs
      = [⟨0, "sync_meta_ads", 0, 0, 0, none⟩]) := by
  decide

/-- The dispatch compatibility rule of the scheduler: two ready jobs are
barred from simultaneous execution only when they share a queue name
(serialization key); jobs without one are dispatched freely up to the
global worker concurrency.  Modelled from the graphile-worker `queueName`
semantics that the repository's plan document relies on. -/
def mayRunConcurrently (a b : JobRecord) : Bool :=
  match a.queueName, b.queueName with
  | some k1, some k2 => !(k1 == k2)
  | _, _ => true

/-- The worker pool's global concurrency limit
(`apps/worker/src/index.ts:11`, `concurrency: 5`). -/
def workerConcurrency : Nat := 5

/-- C5 evaluation: the claim asserts every chunk-sync job carries one
shared serialization key so no two ever execute simultaneously; the code
enqueues chunk jobs with no queue name at all, so a successfully enqueued
2-chunk batch yields two jobs that the scheduler may dispatch
simultaneously (well within the concurrency limit of 5). -/
theorem C5_no_serialization_key :
    ((addJobs ⟨[], 0⟩ [(0, 0), (1, 1)] (fun _ => false)).1.jobs
      = [⟨0, "sync_meta_ads", 0, 0, 0, none⟩, ⟨1, "sync_meta_ads", 1, 1, 1, none⟩]) ∧
    (mayRunConcurrently ⟨0, "sync_meta_ads", 0, 0, 0, none⟩
      ⟨1, "sync_meta_ads", 1, 1, 1, none⟩ = true) ∧
    2 ≤ workerConcurrency := by
  decide

/-- An account object of the Meta `adaccounts` listing
(`apps/worker/src/types/meta`, `MetaAdAccount`). -/
structure MetaAdAccount where
  id : String
  name : String
  currency : String
  timezone_name : String
deriving DecidableEq, Repr

/-- One row of the `ad_accounts` dimension table: surrogate `id`, owning
connection, natural `externalId` (unique per connection), and the
attributes the sync maintains. -/
structure AdAccountRow where
  id : Nat
  platformConnectionId : Nat
  externalId : String
  name : String
  currency : String
  timezone : String
deriving DecidableEq, Repr

/-- The `ad_accounts` table with its id sequence. -/
structure AccountsTable where
  rows : List AdAccountRow
  nextId : Nat
deriving DecidableEq, Repr

/-- The external id derived in `upsertAdAccount`
(`meta-syncer.ts:263`): `metaAccount.id.replace('act_', '')`; Meta account
ids carry the `act_` marker exactly once, at the front. -/
def stripActMarker (s : String) : String :=
  if s.startsWith "act_" then s.drop 4 else s

/-- The conflict target of the account upsert:
`(platform_connection_id, external_id)`. -/
def accountKeyMatches (connectionId : Nat) (externalId : String)
    (r : AdAccountRow) : Bool :=
  r.platformConnectionId == connectionId && r.externalId == externalId

/-- The `ON CONFLICT DO UPDATE SET name, currency, timezone = EXCLUDED...`
effect of the account upsert on one stored row. -/
def applyAccountUpdate (m : MetaAdAccount) (connectionId : Nat)
    (externalId : String) (row : AdAccountRow) : AdAccountRow :=
  if accountKeyMatches connectionId externalId row then
    { row with name := m.name, currency := m.currency, timezone := m.timezone_name }
  else row

/-- Embedding of `upsertAdAccount(connectionId, metaAccount)`
(`meta-syncer.ts:259`): insert-or-update by the natural key, returning the
row id (`RETURNING id`); a fresh insert consumes the id sequence. -/
def upsertAdAccount (t : AccountsTable) (connectionId : Nat)
    (m : MetaAdAccount) : AccountsTable × Nat :=
  match t.rows.find? (accountKeyMatches connectionId (stripActMarker m.id)) with
  | some r =>
    ({ t with rows :=
        t.rows.map (applyAccountUpdate m connectionId (stripActMarker m.id)) },
      r.id)
  | none =>
    ({ rows := t.rows ++
        [⟨t.nextId, connectionId, stripActMarker m.id, m.name, m.currency,
          m.timezone_name⟩],
       nextId := t.nextId + 1 }, t.nextId)

/-- One insight row of the Meta `insights` endpoint
(`apps/worker/src/types/meta`, `MetaInsight`): level-dependent presence of
the hierarchy ids, plus the per-day metrics. -/
structure MetaInsight where
  date_start : Int
  spend : Option DecimalString
  impressions : Option Nat
  clicks : Option Nat
  campaign_id : Option String
  campaign_name : Option String
  adset_id : Option String
  adset_name : Option String
  ad_id : Option String
  ad_name : Option String
deriving DecidableEq, Repr

/-- JS truthiness of an optional string field: absent and empty strings are
falsy. -/
def strTruthy : Option String → Bool
  | none => false
  | some s => !(s == "")

/-- JS `o || dflt` for an optional string. -/
def strOr (o : Option String) (dflt : String) : String :=
  match o with
  | some s => if s == "" then dflt else s
  | none => dflt

/-- JS `o || null` for an optional string. -/
def idOrNull (o : Option String) : Option String :=
  match o with
  | some s => if s == "" then none else some s
  | none => none

/-- One element of `adObjectsToUpsert` in `batchUpsertAdObjects`. -/
structure UpsertEntry where
  externalId : String
  type : ObjType
  name : String
  parentExternalId : Option String
deriving DecidableEq, Repr

/-- One conditional push of the `adObjectsToUpsert` build loop
(`meta-syncer.ts:302`): add the entry when the id is truthy and unseen,
recording it as seen. -/
def pushEntry (acc : List UpsertEntry × List String) (idOpt : Option String)
    (ty : ObjType) (nm : String) (par : Option String) :
    List UpsertEntry × List String :=
  match idOpt with
  | some s =>
    if s == "" || acc.2.contains s then acc
    else (acc.1 ++ [⟨s, ty, nm, par⟩], acc.2 ++ [s])
  | none => acc

/-- The body of the build loop for one insight: campaign, then ad set
(parent: the campaign id, when truthy), then ad (parent: the ad-set id). -/
def buildStep (acc : List UpsertEntry × List String) (ins : MetaInsight) :
    List UpsertEntry × List String :=
  pushEntry
    (pushEntry
      (pushEntry acc ins.campaign_id ObjType.CAMPAIGN
        (strOr ins.campaign_name "Unknown Campaign") none)
      ins.adset_id ObjType.AD_SET
      (strOr ins.adset_name "Unknown AdSet") (idOrNull ins.campaign_id))
    ins.ad_id ObjType.AD
    (strOr ins.ad_name "Unknown Ad") (idOrNull ins.adset_id)

/-- The distinct hierarchy objects referenced by a batch of insights, in
first-seen order, with parent linkage inferred from id co-occurrence. -/
def buildEntries (insights : List MetaInsight) : List UpsertEntry :=
  (insights.foldl buildStep ([], [])).1

/-- The `ad_objects` table with its id sequence. -/
structure ObjectsTable where
  rows : List AdObjectRow
  nextId : Nat
deriving DecidableEq, Repr

/-- The conflict target of the object upsert: `(ad_account_id, external_id)`. -/
def objKeyMatches (acct : Nat) (ext : String) (r : AdObjectRow) : Bool :=
  r.adAccountId == acct && r.externalId == ext

/-- The `ON CONFLICT DO UPDATE SET name, status = EXCLUDED...` effect of
the object upsert on one stored row (the parent reference is deliberately
not touched on conflict). -/
def applyObjUpdate (en : UpsertEntry) (acct : Nat) (row : AdObjectRow) : AdObjectRow :=
  if objKeyMatches acct en.externalId row then
    { row with name := en.name, status := "ACTIVE" }
  else row

/-- One row of the phase-one insert of `batchUpsertAdObjects`
(`meta-syncer.ts:352`): insert with `parentId: null`, `status: 'ACTIVE'`,
or update name/status of the conflicting row. -/
def upsertObjRow (acct : Nat) (t : ObjectsTable) (en : UpsertEntry) : ObjectsTable :=
  match t.rows.find? (objKeyMatches acct en.externalId) with
  | some _ => { t with rows := t.rows.map (applyObjUpdate en acct) }
  | none =>
    { rows := t.rows ++
        [⟨t.nextId, acct, en.externalId, en.type, en.name, "ACTIVE", none⟩],
      nextId := t.nextId + 1 }

/-- The queried-back `externalId -> UUID` map of `batchUpsertAdObjects`
(`meta-syncer.ts:365`), as a lookup over the post-insert table. -/
def lookupObjId (t : ObjectsTable) (acct : Nat) (ext : String) : Option Nat :=
  (t.rows.find? (objKeyMatches acct ext)).map AdObjectRow.id

/-- `UPDATE ad_objects SET parent_id = $parentId WHERE id = $childId`. -/
def setParent (t : ObjectsTable) (childId parentId : Nat) : ObjectsTable :=
  { t with rows := t.rows.map fun r =>
      if r.id == childId then { r with parentId := some parentId } else r }

/-- One step of the parent-resolution pass (`meta-syncer.ts:376`): resolve
child and parent through the queried-back map `t2` and write the link when
both resolve. -/
def linkStep (t2 : ObjectsTable) (acct : Nat) (t : ObjectsTable)
    (en : UpsertEntry) : ObjectsTable :=
  match en.parentExternalId with
  | none => t
  | some pext =>
    match lookupObjId t2 acct en.externalId, lookupObjId t2 acct pext with
    | some childId, some parentId => setParent t childId parentId
    | some _, none => t
    | none, some _ => t
    | none, none => t

/-- Embedding of `batchUpsertAdObjects(adAccountId, insights)`
(`meta-syncer.ts:288`): derive the distinct entries, return unchanged on an
empty batch, otherwise run the two-phase upsert — insert-or-update every
object ignoring parents, then resolve parent references against the
queried-back id map.  (The returned id map itself is the lookup over the
post-insert table and is not re-modelled.) -/
def batchUpsertAdObjects (acct : Nat) (t : ObjectsTable)
    (insights : List MetaInsight) : ObjectsTable :=
  if (buildEntries insights).isEmpty then t
  else
    let t2 := (buildEntries insights).foldl (upsertObjRow acct) t
    (buildEntries insights).foldl (linkStep t2 acct) t2

/-- Mapping a predicate-preserving function through a list commutes with
`find?`. -/
theorem find?_map_of_pred {α : Type} (f : α → α) (p : α → Bool)
    (hp : ∀ a, p (f a) = p a) :
    ∀ l : List α, (l.map f).find? p = (l.find? p).map f := by
  intro l
  induction l with
  | nil => rfl
  | cons a l ih =>
    rw [List.map_cons]
    by_cases h : p a = true
    · rw [List.find?_cons_of_pos _ (by rw [hp]; exact h),
        List.find?_cons_of_pos _ h, Option.map_some']
    · rw [List.find?_cons_of_neg _ (by rw [hp]; exact h),
        List.find?_cons_of_neg _ h]
      exact ih

/-- The account conflict-update leaves the conflict key untouched. -/
theorem applyAccountUpdate_key (m : MetaAdAccount) (c : Nat) (x : String)
    (row : AdAccountRow) :
    accountKeyMatches c x (applyAccountUpdate m c x row)
      = accountKeyMatches c x row := by
  unfold applyAccountUpdate
  split <;> rfl

/-- The account conflict-update is idempotent on a row. -/
theorem applyAccountUpdate_idem (m : MetaAdAccount) (c : Nat) (x : String)
    (row : AdAccountRow) :
    applyAccountUpdate m c x (applyAccountUpdate m c x row)
      = applyAccountUpdate m c x row := by
  unfold applyAccountUpdate
  by_cases h : accountKeyMatches c x row = true
  · rw [if_pos h, if_pos (by rw [show accountKeyMatches c x
      { row with name := m.name, currency := m.currency, timezone := m.timezone_name }
        = accountKeyMatches c x row from rfl]; exact h)]
  · rw [if_neg h, if_neg h]

/-- The account conflict-update keeps the row id. -/
theorem applyAccountUpdate_id (m : MetaAdAccount) (c : Nat) (x : String)
    (row : AdAccountRow) :
    (applyAccountUpdate m c x row).id = row.id := by
  unfold applyAccountUpdate
  split <;> rfl

/-- When the head fails a predicate, and more generally every element of a
prepended list fails it, `find?` lands on the appended singleton when it
matches. -/
theorem find?_append_singleton {α : Type} (p : α → Bool) (a : α)
    (ha : p a = true) :
    ∀ l : List α, (∀ x ∈ l, ¬ p x = true) → (l ++ [a]).find? p = some a := by
  intro l
  induction l with
  | nil =>
    intro _
    rw [List.nil_append, List.find?_cons_of_pos _ ha]
  | cons b l ih =>
    intro h
    rw [List.cons_append,
      List.find?_cons_of_neg _ (h b (List.mem_cons_self _ _))]
    exact ih fun x hx => h x (List.mem_cons_of_mem _ hx)

/-- Idempotence of the account upsert: running it a second time with the
same remote account data changes neither the table nor the returned id. -/
theorem upsertAdAccount_idem (t : AccountsTable) (c : Nat) (m : MetaAdAccount) :
    upsertAdAccount (upsertAdAccount t c m).1 c m = upsertAdAccount t c m := by
  cases hfind : t.rows.find? (accountKeyMatches c (stripActMarker m.id)) with
  | some r =>
    have h1 : upsertAdAccount t c m
        = ({ rows := t.rows.map (applyAccountUpdate m c (stripActMarker m.id)),
             nextId := t.nextId }, r.id) := by
      unfold upsertAdAccount
      rw [hfind]
    have h2 : (t.rows.map (applyAccountUpdate m c (stripActMarker m.id))).find?
        (accountKeyMatches c (stripActMarker m.id))
        = some (applyAccountUpdate m c (stripActMarker m.id) r) := by
      rw [find?_map_of_pred _ _ (applyAccountUpdate_key m c _), hfind,
        Option.map_some']
    have h4 : upsertAdAccount (upsertAdAccount t c m).1 c m
        = ({ rows := (t.rows.map (applyAccountUpdate m c (stripActMarker m.id))).map
              (applyAccountUpdate m c (stripActMarker m.id)),
             nextId := t.nextId },
           (applyAccountUpdate m c (stripActMarker m.id) r).id) := by
      rw [h1]
      unfold upsertAdAccount
      rw [h2]
    have h3 : (t.rows.map (applyAccountUpdate m c (stripActMarker m.id))).map
        (applyAccountUpdate m c (stripActMarker m.id))
        = t.rows.map (applyAccountUpdate m c (stripActMarker m.id)) := by
      rw [List.map_map]
      apply List.map_congr_left
      intro a _
      exact applyAccountUpdate_idem m c _ a
    rw [h4, h3, applyAccountUpdate_id, h1]
  | none =>
    have h1 : upsertAdAccount t c m
        = ({ rows := t.rows ++
              [⟨t.nextId, c, stripActMarker m.id, m.name, m.currency,
                m.timezone_name⟩],
             nextId := t.nextId + 1 }, t.nextId) := by
      unfold upsertAdAccount
      rw [hfind]
    have hnone : ∀ row ∈ t.rows,
        ¬ accountKeyMatches c (stripActMarker m.id) row = true :=
      fun row hrow => List.find?_eq_none.mp hfind row hrow
    have hnew : accountKeyMatches c (stripActMarker m.id)
        ⟨t.nextId, c, stripActMarker m.id, m.name, m.currency, m.timezone_name⟩
        = true := by
      unfold accountKeyMatches
      simp
    have h2 : (t.rows ++
        [(⟨t.nextId, c, stripActMarker m.id, m.name, m.currency,
          m.timezone_name⟩ : AdAccountRow)]).find?
          (accountKeyMatches c (stripActMarker m.id))
        = some ⟨t.nextId, c, stripActMarker m.id, m.name, m.currency,
            m.timezone_name⟩ :=
      find?_append_singleton _ _ hnew t.rows hnone
    have h4 : upsertAdAccount (upsertAdAccount t c m).1 c m
        = ({ rows := (t.rows ++
              [(⟨t.nextId, c, stripActMarker m.id, m.name, m.currency,
                m.timezone_name⟩ : AdAccountRow)]).map
                (applyAccountUpdate m c (stripActMarker m.id)),
             nextId := t.nextId + 1 }, t.nextId) := by
      rw [h1]
      unfold upsertAdAccount
      rw [h2]
    have h3 : (t.rows ++
        [(⟨t.nextId, c, stripActMarker m.id, m.name, m.currency,
          m.timezone_name⟩ : AdAccountRow)]).map
          (applyAccountUpdate m c (stripActMarker m.id))
        = t.rows ++
          [(⟨t.nextId, c, stripActMarker m.id, m.name, m.currency,
            m.timezone_name⟩ : AdAccountRow)] := by
      rw [List.map_append]
      have hrows : t.rows.map (applyAccountUpdate m c (stripActMarker m.id))
          = t.rows := by
        have hcongr : t.rows.map (applyAccountUpdate m c (stripActMarker m.id))
            = t.rows.map id := by
          apply List.map_congr_left
          intro a ha
          unfold applyAccountUpdate
          rw [if_neg (hnone a ha)]
          rfl
        rw [hcongr, List.map_id]
      have hone : applyAccountUpdate m c (stripActMarker m.id)
          ⟨t.nextId, c, stripActMarker m.id, m.name, m.currency, m.timezone_name⟩
          = ⟨t.nextId, c, stripActMarker m.id, m.name, m.currency,
              m.timezone_name⟩ := by
        unfold applyAccountUpdate
        rw [if_pos hnew]
      rw [hrows, List.map_cons, List.map_nil, hone]
    rw [h4, h3, h1]

/-- A fold whose step fixes the accumulator on every list element leaves
the accumulator unchanged. -/
theorem foldl_fixed {α β : Type} (f : β → α → β) (b : β) :
    ∀ l : List α, (∀ a ∈ l, f b a = b) → l.foldl f b = b := by
  intro l
  induction l with
  | nil => intro _; rfl
  | cons a l ih =>
    intro h
    rw [List.foldl_cons, h a (List.mem_cons_self _ _)]
    exact ih fun x hx => h x (List.mem_cons_of_mem _ hx)

/-- Appending a fresh element keeps a list duplicate-free. -/
theorem nodup_append_singleton {α : Type} (l : List α) (a : α)
    (hl : l.Nodup) (ha : a ∉ l) : (l ++ [a]).Nodup := by
  rw [List.nodup_append]
  exact ⟨hl, List.nodup_singleton a, by
    intro x hx hxa
    rw [List.mem_singleton] at hxa
    rw [hxa] at hx
    exact ha hx⟩

/-- Invariant of the `adObjectsToUpsert` build loop: collected entries have
pairwise distinct external ids, each recorded in the seen set. -/
def BuildInv (acc : List UpsertEntry × List String) : Prop :=
  (acc.1.map UpsertEntry.externalId).Nodup ∧
  ∀ en ∈ acc.1, en.externalId ∈ acc.2

/-- One conditional push preserves the build invariant. -/
theorem pushEntry_inv (acc : List UpsertEntry × List String)
    (idOpt : Option String) (ty : ObjType) (nm : String) (par : Option String)
    (h : BuildInv acc) : BuildInv (pushEntry acc idOpt ty nm par) := by
  obtain ⟨hnd, hseen⟩ := h
  cases idOpt with
  | none => exact ⟨hnd, hseen⟩
  | some s =>
    simp only [pushEntry]
    by_cases hskip : (s == "" || acc.2.contains s) = true
    · rw [if_pos hskip]
      exact ⟨hnd, hseen⟩
    · rw [if_neg hskip]
      simp only [Bool.or_eq_true, beq_iff_eq, List.contains_iff_exists_mem_beq,
        not_or, not_exists] at hskip
      constructor
      · rw [List.map_append]
        apply nodup_append_singleton _ _ hnd
        intro hmem
        obtain ⟨en, hen, hext⟩ := List.mem_map.mp hmem
        have hs : en.externalId = s := hext
        have hmem2 : s ∈ acc.2 := by rw [← hs]; exact hseen en hen
        exact hskip.2 s ⟨hmem2, rfl⟩
      · intro en hen
        rcases List.mem_append.mp hen with h1 | h1
        · exact List.mem_append.mpr (Or.inl (hseen en h1))
        · rw [List.mem_singleton] at h1
          rw [h1]
          exact List.mem_append.mpr (Or.inr (List.mem_singleton_self s))

/-- The build loop body preserves the invariant. -/
theorem buildStep_inv (acc : List UpsertEntry × List String) (ins : MetaInsight)
    (h : BuildInv acc) : BuildInv (buildStep acc ins) :=
  pushEntry_inv _ _ _ _ _ (pushEntry_inv _ _ _ _ _ (pushEntry_inv _ _ _ _ _ h))

/-- The distinct entries derived from a batch have pairwise distinct
external ids. -/
theorem buildEntries_nodup (insights : List MetaInsight) :
    ((buildEntries insights).map UpsertEntry.externalId).Nodup := by
  have h : ∀ (l : List MetaInsight) (acc : List UpsertEntry × List String),
      BuildInv acc → BuildInv (l.foldl buildStep acc) := by
    intro l
    induction l with
    | nil => intro acc h; exact h
    | cons ins l ih =>
      intro acc h
      rw [List.foldl_cons]
      exact ih _ (buildStep_inv acc ins h)
  exact (h insights ([], []) ⟨List.nodup_nil, by simp⟩).1

/-- Table well-formedness maintained by the database's constraints: the
(account, external id) pairs are unique, the surrogate ids are unique, and
every id is below the id sequence. -/
def ObjWF (t : ObjectsTable) : Prop :=
  (t.rows.map fun r => (r.adAccountId, r.externalId)).Nodup ∧
  (t.rows.map AdObjectRow.id).Nodup ∧
  ∀ r ∈ t.rows, r.id < t.nextId

/-- The object conflict-update touches only name and status. -/
theorem applyObjUpdate_fields (en : UpsertEntry) (acct : Nat) (row : AdObjectRow) :
    (applyObjUpdate en acct row).id = row.id ∧
    (applyObjUpdate en acct row).adAccountId = row.adAccountId ∧
    (applyObjUpdate en acct row).externalId = row.externalId ∧
    (applyObjUpdate en acct row).type = row.type ∧
    (applyObjUpdate en acct row).parentId = row.parentId := by
  unfold applyObjUpdate
  split <;> exact ⟨rfl, rfl, rfl, rfl, rfl⟩

/-- The object conflict-update preserves every conflict key. -/
theorem applyObjUpdate_key (en : UpsertEntry) (acct a : Nat) (e : String)
    (row : AdObjectRow) :
    objKeyMatches a e (applyObjUpdate en acct row) = objKeyMatches a e row := by
  unfold applyObjUpdate
  split <;> rfl

/-- One object upsert preserves table well-formedness. -/
theorem upsertObjRow_wf (acct : Nat) (t : ObjectsTable) (en : UpsertEntry)
    (h : ObjWF t) : ObjWF (upsertObjRow acct t en) := by
  obtain ⟨hkeys, hids, hfresh⟩ := h
  cases hfind : t.rows.find? (objKeyMatches acct en.externalId) with
  | some r =>
    have heq : upsertObjRow acct t en
        = { rows := t.rows.map (applyObjUpdate en acct), nextId := t.nextId } := by
      unfold upsertObjRow
      rw [hfind]
    rw [heq]
    have hkeq : (t.rows.map (applyObjUpdate en acct)).map
        (fun r => (r.adAccountId, r.externalId))
        = t.rows.map fun r => (r.adAccountId, r.externalId) := by
      rw [List.map_map]
      apply List.map_congr_left
      intro a _
      have hf := applyObjUpdate_fields en acct a
      simp only [Function.comp]
      rw [hf.2.1, hf.2.2.1]
    have hieq : (t.rows.map (applyObjUpdate en acct)).map AdObjectRow.id
        = t.rows.map AdObjectRow.id := by
      rw [List.map_map]
      apply List.map_congr_left
      intro a _
      simp only [Function.comp]
      exact (applyObjUpdate_fields en acct a).1
    refine ⟨by rw [hkeq]; exact hkeys, by rw [hieq]; exact hids, ?_⟩
    intro r' hr'
    obtain ⟨r0, hr0, hr0e⟩ := List.mem_map.mp hr'
    rw [← hr0e, (applyObjUpdate_fields en acct r0).1]
    exact hfresh r0 hr0
  | none =>
    have hnomatch : ∀ row ∈ t.rows, ¬ objKeyMatches acct en.externalId row = true :=
      fun row hrow => List.find?_eq_none.mp hfind row hrow
    have heq : upsertObjRow acct t en
        = { rows := t.rows ++
              [⟨t.nextId, acct, en.externalId, en.type, en.name, "ACTIVE", none⟩],
            nextId := t.nextId + 1 } := by
      unfold upsertObjRow
      rw [hfind]
    rw [heq]
    refine ⟨?_, ?_, ?_⟩
    · rw [List.map_append]
      apply nodup_append_singleton _ _ hkeys
      intro hmem
      obtain ⟨row, hrow, hre⟩ := List.mem_map.mp hmem
      have hre2 : (row.adAccountId, row.externalId) = (acct, en.externalId) := hre
      apply hnomatch row hrow
      unfold objKeyMatches
      injection hre2 with h1 h2
      rw [h1, h2]
      simp
    · rw [List.map_append]
      apply nodup_append_singleton _ _ hids
      intro hmem
      obtain ⟨row, hrow, hre⟩ := List.mem_map.mp hmem
      have hre2 : row.id = t.nextId := hre
      have := hfresh row hrow
      omega
    · intro r' hr'
      rcases List.mem_append.mp hr' with h1 | h1
      · have := hfresh r' h1
        have hlt : r'.id < t.nextId := this
        simp only []
        omega
      · rw [List.mem_singleton] at h1
        rw [h1]
        simp only []
        omega

/-- The state the phase-one upsert guarantees for one entry's key: a row
with the key exists, and every row with the key carries the entry's name
and an ACTIVE status. -/
def KeyState (acct : Nat) (ext nm : String) (t : ObjectsTable) : Prop :=
  (∃ row ∈ t.rows, objKeyMatches acct ext row = true) ∧
  (∀ row ∈ t.rows, objKeyMatches acct ext row = true →
    row.name = nm ∧ row.status = "ACTIVE")

/-- Updating name and status to their current values is the identity. -/
theorem objRow_set_eq (row : AdObjectRow) (nm st : String)
    (hn : row.name = nm) (hs : row.status = st) :
    ({ row with name := nm, status := st } : AdObjectRow) = row := by
  cases row
  simp_all

/-- Updating the parent reference to its current value is the identity. -/
theorem objRow_setParent_eq (row : AdObjectRow) (pid : Nat)
    (hp : row.parentId = some pid) :
    ({ row with parentId := some pid } : AdObjectRow) = row := by
  cases row
  simp_all

/-- The phase-one upsert of an entry establishes its key state. -/
theorem upsertObjRow_keystate (acct : Nat) (t : ObjectsTable) (en : UpsertEntry) :
    KeyState acct en.externalId en.name (upsertObjRow acct t en) := by
  cases hfind : t.rows.find? (objKeyMatches acct en.externalId) with
  | some r =>
    have heq : upsertObjRow acct t en
        = { rows := t.rows.map (applyObjUpdate en acct), nextId := t.nextId } := by
      unfold upsertObjRow
      rw [hfind]
    rw [heq]
    constructor
    · exact ⟨applyObjUpdate en acct r,
        List.mem_map.mpr ⟨r, List.mem_of_find?_eq_some hfind, rfl⟩,
        by rw [applyObjUpdate_key]; exact List.find?_some hfind⟩
    · intro row' hrow' hkey'
      obtain ⟨row0, h0, h0e⟩ := List.mem_map.mp hrow'
      rw [← h0e] at hkey' ⊢
      rw [applyObjUpdate_key] at hkey'
      unfold applyObjUpdate
      rw [if_pos hkey']
      exact ⟨rfl, rfl⟩
  | none =>
    have hnomatch : ∀ row ∈ t.rows, ¬ objKeyMatches acct en.externalId row = true :=
      fun row hrow => List.find?_eq_none.mp hfind row hrow
    have heq : upsertObjRow acct t en
        = { rows := t.rows ++
              [⟨t.nextId, acct, en.externalId, en.type, en.name, "ACTIVE", none⟩],
            nextId := t.nextId + 1 } := by
      unfold upsertObjRow
      rw [hfind]
    rw [heq]
    constructor
    · refine ⟨⟨t.nextId, acct, en.externalId, en.type, en.name, "ACTIVE", none⟩,
        List.mem_append.mpr (Or.inr (List.mem_singleton_self _)), ?_⟩
      unfold objKeyMatches
      simp
    · intro row' hrow' hkey'
      rcases List.mem_append.mp hrow' with h1 | h1
      · exact absurd hkey' (hnomatch row' h1)
      · rw [List.mem_singleton] at h1
        rw [h1]
        exact ⟨rfl, rfl⟩

/-- The phase-one upsert of a different entry preserves a key state. -/
theorem upsertObjRow_keystate_preserved (acct : Nat) (t : ObjectsTable)
    (en' : UpsertEntry) (ext nm : String) (hne : en'.externalId ≠ ext)
    (h : KeyState acct ext nm t) :
    KeyState acct ext nm (upsertObjRow acct t en') := by
  obtain ⟨⟨row, hrowm, hrowk⟩, hall⟩ := h
  cases hfind : t.rows.find? (objKeyMatches acct en'.externalId) with
  | some r =>
    have heq : upsertObjRow acct t en'
        = { rows := t.rows.map (applyObjUpdate en' acct), nextId := t.nextId } := by
      unfold upsertObjRow
      rw [hfind]
    rw [heq]
    constructor
    · exact ⟨applyObjUpdate en' acct row, List.mem_map.mpr ⟨row, hrowm, rfl⟩,
        by rw [applyObjUpdate_key]; exact hrowk⟩
    · intro row' hrow' hkey'
      obtain ⟨row0, h0, h0e⟩ := List.mem_map.mp hrow'
      rw [← h0e] at hkey' ⊢
      rw [applyObjUpdate_key] at hkey'
      have hext0 : row0.externalId = ext := by
        unfold objKeyMatches at hkey'
        simp only [Bool.and_eq_true, beq_iff_eq] at hkey'
        exact hkey'.2
      have hk2 : ¬ objKeyMatches acct en'.externalId row0 = true := by
        unfold objKeyMatches
        simp only [Bool.and_eq_true, beq_iff_eq, not_and]
        intro _
        rw [hext0]
        exact fun hcongr => hne hcongr.symm
      unfold applyObjUpdate
      rw [if_neg hk2]
      exact hall row0 h0 hkey'
  | none =>
    have heq : upsertObjRow acct t en'
        = { rows := t.rows ++
              [⟨t.nextId, acct, en'.externalId, en'.type, en'.name, "ACTIVE", none⟩],
            nextId := t.nextId + 1 } := by
      unfold upsertObjRow
      rw [hfind]
    rw [heq]
    constructor
    · exact ⟨row, List.mem_append.mpr (Or.inl hrowm), hrowk⟩
    · intro row' hrow' hkey'
      rcases List.mem_append.mp hrow' with h1 | h1
      · exact hall row' h1 hkey'
      · rw [List.mem_singleton] at h1
        rw [h1] at hkey'
        have hext0 : en'.externalId = ext := by
          unfold objKeyMatches at hkey'
          simp only [Bool.and_eq_true, beq_iff_eq] at hkey'
          exact hkey'.2
        exact absurd hext0 hne

/-- The whole phase-one fold of entries avoiding a key preserves its key
state. -/
theorem foldl_upsert_keystate_preserved (acct : Nat) (ext nm : String) :
    ∀ (entries : List UpsertEntry) (t : ObjectsTable),
      (∀ en' ∈ entries, en'.externalId ≠ ext) →
      KeyState acct ext nm t →
      KeyState acct ext nm (entries.foldl (upsertObjRow acct) t) := by
  intro entries
  induction entries with
  | nil => intro t _ h; exact h
  | cons e0 rest ih =>
    intro t hne h
    rw [List.foldl_cons]
    exact ih _ (fun en' hen' => hne en' (List.mem_cons_of_mem _ hen'))
      (upsertObjRow_keystate_preserved acct t e0 ext nm
        (hne e0 (List.mem_cons_self _ _)) h)

/-- After the phase-one fold over duplicate-free entries, every entry's key
state holds. -/
theorem foldl_upsert_keystate (acct : Nat) :
    ∀ (entries : List UpsertEntry) (t : ObjectsTable),
      (entries.map UpsertEntry.externalId).Nodup →
      ∀ en ∈ entries, KeyState acct en.externalId en.name
        (entries.foldl (upsertObjRow acct) t) := by
  intro entries
  induction entries with
  | nil => intro t _ en hen; exact absurd hen (List.not_mem_nil en)
  | cons e0 rest ih =>
    intro t hnd en hen
    rw [List.map_cons, List.nodup_cons] at hnd
    rw [List.foldl_cons]
    rcases List.mem_cons.mp hen with h | h
    · subst h
      apply foldl_upsert_keystate_preserved
      · intro en' hen' heq2
        exact hnd.1 (List.mem_map.mpr ⟨en', hen', heq2⟩)
      · exact upsertObjRow_keystate acct t en
    · exact ih _ hnd.2 en h

/-- A phase-one upsert whose key state already holds is the identity. -/
theorem upsertObjRow_fixed (acct : Nat) (t : ObjectsTable) (en : UpsertEntry)
    (h : KeyState acct en.externalId en.name t) :
    upsertObjRow acct t en = t := by
  obtain ⟨⟨row, hrowm, hrowk⟩, hall⟩ := h
  cases hfind : t.rows.find? (objKeyMatches acct en.externalId) with
  | none => exact absurd hrowk (List.find?_eq_none.mp hfind row hrowm)
  | some r =>
    have heq : upsertObjRow acct t en
        = { rows := t.rows.map (applyObjUpdate en acct), nextId := t.nextId } := by
      unfold upsertObjRow
      rw [hfind]
    rw [heq]
    have hmap : t.rows.map (applyObjUpdate en acct) = t.rows := by
      have hcongr : t.rows.map (applyObjUpdate en acct) = t.rows.map id := by
        apply List.map_congr_left
        intro a ha
        by_cases hk : objKeyMatches acct en.externalId a = true
        · obtain ⟨hn, hs⟩ := hall a ha hk
          show applyObjUpdate en acct a = a
          unfold applyObjUpdate
          rw [if_pos hk]
          exact objRow_set_eq a _ _ hn hs
        · show applyObjUpdate en acct a = a
          unfold applyObjUpdate
          rw [if_neg hk]
      rw [hcongr, List.map_id]
    rw [hmap]

/-- A phase-one fold whose key states already hold is the identity. -/
theorem foldl_upsert_fixed (acct : Nat) (entries : List UpsertEntry)
    (t : ObjectsTable)
    (h : ∀ en ∈ entries, KeyState acct en.externalId en.name t) :
    entries.foldl (upsertObjRow acct) t = t :=
  foldl_fixed _ _ entries fun en hen => upsertObjRow_fixed acct t en (h en hen)

/-- Agreement of two object rows on every field but the parent reference. -/
def RowsShape (r r' : AdObjectRow) : Prop :=
  r'.id = r.id ∧ r'.adAccountId = r.adAccountId ∧ r'.externalId = r.externalId ∧
  r'.type = r.type ∧ r'.name = r.name ∧ r'.status = r.status

/-- The parent-resolution pass only rewrites parent references: the id
sequence is unchanged and rows agree pairwise on everything else. -/
def ParentsOnly (t t' : ObjectsTable) : Prop :=
  t'.nextId = t.nextId ∧ List.Forall₂ RowsShape t.rows t'.rows

theorem rowsShape_trans {a b c : AdObjectRow}
    (h1 : RowsShape a b) (h2 : RowsShape b c) : RowsShape a c :=
  ⟨h2.1.trans h1.1, h2.2.1.trans h1.2.1, h2.2.2.1.trans h1.2.2.1,
    h2.2.2.2.1.trans h1.2.2.2.1, h2.2.2.2.2.1.trans h1.2.2.2.2.1,
    h2.2.2.2.2.2.trans h1.2.2.2.2.2⟩

theorem forall₂_rowsShape_trans :
    ∀ {l1 l2 l3 : List AdObjectRow}, List.Forall₂ RowsShape l1 l2 →
      List.Forall₂ RowsShape l2 l3 → List.Forall₂ RowsShape l1 l3 := by
  intro l1 l2 l3 h12
  induction h12 generalizing l3 with
  | nil =>
    intro h23
    cases h23
    exact List.Forall₂.nil
  | cons ha htl ih =>
    intro h23
    cases h23 with
    | cons hb htl2 => exact List.Forall₂.cons (rowsShape_trans ha hb) (ih htl2)

theorem parentsOnly_refl (t : ObjectsTable) : ParentsOnly t t :=
  ⟨rfl, List.forall₂_same.mpr fun _ _ => ⟨rfl, rfl, rfl, rfl, rfl, rfl⟩⟩

theorem parentsOnly_trans {t1 t2 t3 : ObjectsTable}
    (h1 : ParentsOnly t1 t2) (h2 : ParentsOnly t2 t3) : ParentsOnly t1 t3 :=
  ⟨h2.1.trans h1.1, forall₂_rowsShape_trans h1.2 h2.2⟩

theorem forall₂_map_self (g : AdObjectRow → AdObjectRow)
    (hg : ∀ a, RowsShape a (g a)) :
    ∀ l : List AdObjectRow, List.Forall₂ RowsShape l (l.map g) := by
  intro l
  induction l with
  | nil => exact List.Forall₂.nil
  | cons a l ih => exact List.Forall₂.cons (hg a) ih

theorem parentsOnly_setParent (t : ObjectsTable) (cid pid : Nat) :
    ParentsOnly t (setParent t cid pid) := by
  refine ⟨rfl, ?_⟩
  apply forall₂_map_self
  intro a
  by_cases hid : (a.id == cid) = true
  · unfold RowsShape
    rw [if_pos hid]
    exact ⟨rfl, rfl, rfl, rfl, rfl, rfl⟩
  · unfold RowsShape
    rw [if_neg hid]
    exact ⟨rfl, rfl, rfl, rfl, rfl, rfl⟩

theorem parentsOnly_linkStep (t2 : ObjectsTable) (acct : Nat)
    (t : ObjectsTable) (en : UpsertEntry) :
    ParentsOnly t (linkStep t2 acct t en) := by
  cases hp : en.parentExternalId with
  | none =>
    simp only [linkStep, hp]
    exact parentsOnly_refl t
  | some pext =>
    cases hc : lookupObjId t2 acct en.externalId with
    | none =>
      cases hpar : lookupObjId t2 acct pext <;>
        simp only [linkStep, hp, hc, hpar] <;>
        exact parentsOnly_refl t
    | some cid =>
      cases hpar : lookupObjId t2 acct pext with
      | none =>
        simp only [linkStep, hp, hc, hpar]
        exact parentsOnly_refl t
      | some pid =>
        simp only [linkStep, hp, hc, hpar]
        exact parentsOnly_setParent t cid pid

theorem parentsOnly_foldl_link (t2 : ObjectsTable) (acct : Nat) :
    ∀ (entries : List UpsertEntry) (t : ObjectsTable),
      ParentsOnly t (entries.foldl (linkStep t2 acct) t) := by
  intro entries
  induction entries with
  | nil => intro t; exact parentsOnly_refl t
  | cons e0 rest ih =>
    intro t
    rw [List.foldl_cons]
    exact parentsOnly_trans (parentsOnly_linkStep t2 acct t e0) (ih _)

theorem forall₂_mem_left {α β : Type} {R : α → β → Prop} :
    ∀ {l : List α} {l' : List β}, List.Forall₂ R l l' →
      ∀ a ∈ l, ∃ b ∈ l', R a b := by
  intro l l' h
  induction h with
  | nil => intro a ha; exact absurd ha (List.not_mem_nil a)
  | @cons x y l1 l2 hxy htl ih =>
    intro a ha
    rcases List.mem_cons.mp ha with h1 | h1
    · exact ⟨y, List.mem_cons_self _ _, h1 ▸ hxy⟩
    · obtain ⟨b, hb, hab⟩ := ih a h1
      exact ⟨b, List.mem_cons_of_mem _ hb, hab⟩

theorem forall₂_mem_right {α β : Type} {R : α → β → Prop} :
    ∀ {l : List α} {l' : List β}, List.Forall₂ R l l' →
      ∀ b ∈ l', ∃ a ∈ l, R a b := by
  intro l l' h
  induction h with
  | nil => intro b hb; exact absurd hb (List.not_mem_nil b)
  | @cons x y l1 l2 hxy htl ih =>
    intro b hb
    rcases List.mem_cons.mp hb with h1 | h1
    · exact ⟨x, List.mem_cons_self _ _, h1 ▸ hxy⟩
    · obtain ⟨a, ha, hab⟩ := ih b h1
      exact ⟨a, List.mem_cons_of_mem _ ha, hab⟩

/-- Two rows agreeing on account and external id match the same keys. -/
theorem rowsShape_key {a b : AdObjectRow} (h : RowsShape a b) (acct : Nat)
    (ext : String) : objKeyMatches acct ext b = objKeyMatches acct ext a := by
  unfold objKeyMatches
  rw [h.2.1, h.2.2.1]

theorem forall₂_find?_key :
    ∀ {l l' : List AdObjectRow}, List.Forall₂ RowsShape l l' →
      ∀ (acct : Nat) (ext : String),
        Option.map AdObjectRow.id (l'.find? (objKeyMatches acct ext))
          = Option.map AdObjectRow.id (l.find? (objKeyMatches acct ext)) := by
  intro l l' h
  induction h with
  | nil => intro acct ext; rfl
  | @cons a b l1 l2 hab htl ih =>
    intro acct ext
    by_cases hcase : objKeyMatches acct ext a = true
    · rw [List.find?_cons_of_pos _ hcase,
        List.find?_cons_of_pos _ (by rw [rowsShape_key hab]; exact hcase)]
      simp only [Option.map_some', Option.some.injEq]
      exact hab.1
    · rw [List.find?_cons_of_neg _ hcase,
        List.find?_cons_of_neg _ (by rw [rowsShape_key hab]; exact hcase)]
      exact ih acct ext

theorem parentsOnly_lookup {t t' : ObjectsTable} (h : ParentsOnly t t')
    (acct : Nat) (ext : String) :
    lookupObjId t' acct ext = lookupObjId t acct ext := by
  unfold lookupObjId
  exact forall₂_find?_key h.2 acct ext

theorem parentsOnly_keystate {t t' : ObjectsTable} (h : ParentsOnly t t')
    (acct : Nat) (ext nm : String) (hks : KeyState acct ext nm t) :
    KeyState acct ext nm t' := by
  obtain ⟨⟨row, hm, hk⟩, hall⟩ := hks
  constructor
  · obtain ⟨row', hm', hsh⟩ := forall₂_mem_left h.2 row hm
    exact ⟨row', hm', by rw [rowsShape_key hsh]; exact hk⟩
  · intro row' hm' hk'
    obtain ⟨row0, h0, hsh⟩ := forall₂_mem_right h.2 row' hm'
    rw [rowsShape_key hsh] at hk'
    obtain ⟨hn, hs⟩ := hall row0 h0 hk'
    exact ⟨hsh.2.2.2.2.1.trans hn, hsh.2.2.2.2.2.trans hs⟩

/-- Every row holding the child id carries the given parent link. -/
def ParentSet (t : ObjectsTable) (cid pid : Nat) : Prop :=
  ∀ row ∈ t.rows, row.id = cid → row.parentId = some pid

theorem setParent_parentSet (t : ObjectsTable) (cid pid : Nat) :
    ParentSet (setParent t cid pid) cid pid := by
  intro row' hrow' hid
  obtain ⟨row0, h0, h0e⟩ := List.mem_map.mp hrow'
  by_cases hid0 : (row0.id == cid) = true
  · rw [← h0e, if_pos hid0]
  · rw [← h0e, if_neg hid0] at hid
    exact absurd (by rw [hid]; simp : (row0.id == cid) = true) hid0

theorem setParent_preserves_parentSet (t : ObjectsTable) (cid' pid' cid pid : Nat)
    (hne : cid' ≠ cid) (h : ParentSet t cid pid) :
    ParentSet (setParent t cid' pid') cid pid := by
  intro row' hrow' hid
  obtain ⟨row0, h0, h0e⟩ := List.mem_map.mp hrow'
  by_cases hid0 : (row0.id == cid') = true
  · rw [← h0e, if_pos hid0] at hid
    rw [beq_iff_eq] at hid0
    have : cid' = cid := by rw [← hid0]; exact hid
    exact absurd this hne
  · rw [← h0e, if_neg hid0] at hid ⊢
    exact h row0 h0 hid

theorem linkStep_preserves_parentSet (t2 : ObjectsTable) (acct : Nat)
    (t : ObjectsTable) (en : UpsertEntry) (cid pid : Nat)
    (hch : ∀ cid', lookupObjId t2 acct en.externalId = some cid' → cid' ≠ cid)
    (h : ParentSet t cid pid) :
    ParentSet (linkStep t2 acct t en) cid pid := by
  cases hp : en.parentExternalId with
  | none =>
    simp only [linkStep, hp]
    exact h
  | some pext =>
    cases hc : lookupObjId t2 acct en.externalId with
    | none =>
      cases hpar : lookupObjId t2 acct pext <;>
        simp only [linkStep, hp, hc, hpar] <;> exact h
    | some cid' =>
      cases hpar : lookupObjId t2 acct pext with
      | none =>
        simp only [linkStep, hp, hc, hpar]
        exact h
      | some pid' =>
        simp only [linkStep, hp, hc, hpar]
        exact setParent_preserves_parentSet t cid' pid' cid pid (hch cid' hc) h

theorem foldl_link_preserves_parentSet (t2 : ObjectsTable) (acct cid pid : Nat) :
    ∀ (entries : List UpsertEntry) (t : ObjectsTable),
      (∀ en' ∈ entries, ∀ cid',
          lookupObjId t2 acct en'.externalId = some cid' → cid' ≠ cid) →
      ParentSet t cid pid →
      ParentSet (entries.foldl (linkStep t2 acct) t) cid pid := by
  intro entries
  induction entries with
  | nil => intro t _ h; exact h
  | cons e0 rest ih =>
    intro t hch h
    rw [List.foldl_cons]
    exact ih _ (fun en' hen' => hch en' (List.mem_cons_of_mem _ hen'))
      (linkStep_preserves_parentSet t2 acct t e0 cid pid
        (hch e0 (List.mem_cons_self _ _)) h)

/-- An id returned by the queried-back map belongs to a row carrying the
requested key. -/
theorem lookupObjId_spec (t : ObjectsTable) (acct : Nat) (ext : String) (i : Nat)
    (h : lookupObjId t acct ext = some i) :
    ∃ row ∈ t.rows, row.id = i ∧ row.adAccountId = acct ∧ row.externalId = ext := by
  unfold lookupObjId at h
  cases hf : t.rows.find? (objKeyMatches acct ext) with
  | none => rw [hf] at h; exact absurd h (by simp)
  | some r =>
    rw [hf, Option.map_some'] at h
    injection h with h
    have hm := List.mem_of_find?_eq_some hf
    have hp := List.find?_some hf
    unfold objKeyMatches at hp
    simp only [Bool.and_eq_true, beq_iff_eq] at hp
    exact ⟨r, hm, h, hp.1, hp.2⟩

/-- Under unique ids, the queried-back map is injective across distinct
external ids. -/
theorem lookupObjId_inj (t : ObjectsTable) (acct : Nat)
    (hids : (t.rows.map AdObjectRow.id).Nodup) (e1 e2 : String) (i1 i2 : Nat)
    (h1 : lookupObjId t acct e1 = some i1) (h2 : lookupObjId t acct e2 = some i2)
    (hne : e1 ≠ e2) : i1 ≠ i2 := by
  obtain ⟨r1, hm1, hi1, -, he1⟩ := lookupObjId_spec t acct e1 i1 h1
  obtain ⟨r2, hm2, hi2, -, he2⟩ := lookupObjId_spec t acct e2 i2 h2
  intro heq
  have hr : r1 = r2 :=
    List.inj_on_of_nodup_map hids hm1 hm2 (by rw [hi1, hi2, heq])
  apply hne
  rw [← he1, ← he2, hr]

/-- After the parent-resolution fold over duplicate-free entries, every
link the map resolves is written: the row holding the child id carries the
resolved parent id. -/
theorem foldl_link_parentSet (t2 : ObjectsTable) (acct : Nat)
    (hids2 : (t2.rows.map AdObjectRow.id).Nodup) :
    ∀ (entries : List UpsertEntry) (T : ObjectsTable),
      (entries.map UpsertEntry.externalId).Nodup →
      ∀ en ∈ entries, ∀ (pext : String) (cid pid : Nat),
        en.parentExternalId = some pext →
        lookupObjId t2 acct en.externalId = some cid →
        lookupObjId t2 acct pext = some pid →
        ParentSet (entries.foldl (linkStep t2 acct) T) cid pid := by
  intro entries
  induction entries with
  | nil => intro T _ en hen; exact absurd hen (List.not_mem_nil _)
  | cons e0 rest ih =>
    intro T hnd en hen pext cid pid hp hc hpar
    rw [List.map_cons, List.nodup_cons] at hnd
    rw [List.foldl_cons]
    rcases List.mem_cons.mp hen with h | h
    · subst h
      have hstep : linkStep t2 acct T en = setParent T cid pid := by
        simp only [linkStep, hp, hc, hpar]
      rw [hstep]
      apply foldl_link_preserves_parentSet
      · intro en' hen' cid' hc'
        apply lookupObjId_inj t2 acct hids2 en'.externalId en.externalId cid' cid
          hc' hc
        intro hee
        exact hnd.1 (List.mem_map.mpr ⟨en', hen', hee⟩)
      · exact setParent_parentSet T cid pid
    · exact ih _ hnd.2 en h pext cid pid hp hc hpar

/-- Setting a parent link that is already present is the identity. -/
theorem setParent_fixed (t : ObjectsTable) (cid pid : Nat)
    (h : ParentSet t cid pid) : setParent t cid pid = t := by
  unfold setParent
  have hmap : (t.rows.map fun r =>
      if r.id == cid then { r with parentId := some pid } else r) = t.rows := by
    have hcongr : (t.rows.map fun r =>
        if r.id == cid then { r with parentId := some pid } else r)
        = t.rows.map id := by
      apply List.map_congr_left
      intro a ha
      by_cases hid : (a.id == cid) = true
      · show (if a.id == cid then { a with parentId := some pid } else a) = a
        rw [if_pos hid]
        exact objRow_setParent_eq a pid (h a ha (by rw [← beq_iff_eq (a := a.id)]; exact hid))
      · show (if a.id == cid then { a with parentId := some pid } else a) = a
        rw [if_neg hid]
    rw [hcongr, List.map_id]
  rw [hmap]

/-- A parent-resolution step whose resolved link is already present is the
identity. -/
theorem linkStep_fixed (t2 : ObjectsTable) (acct : Nat) (T : ObjectsTable)
    (en : UpsertEntry)
    (h : ∀ (pext : String) (cid pid : Nat), en.parentExternalId = some pext →
        lookupObjId t2 acct en.externalId = some cid →
        lookupObjId t2 acct pext = some pid → ParentSet T cid pid) :
    linkStep t2 acct T en = T := by
  cases hp : en.parentExternalId with
  | none => simp only [linkStep, hp]
  | some pext =>
    cases hc : lookupObjId t2 acct en.externalId with
    | none =>
      cases hpar : lookupObjId t2 acct pext <;> simp only [linkStep, hp, hc, hpar]
    | some cid =>
      cases hpar : lookupObjId t2 acct pext with
      | none => simp only [linkStep, hp, hc, hpar]
      | some pid =>
        simp only [linkStep, hp, hc, hpar]
        exact setParent_fixed T cid pid (h pext cid pid hp hc hpar)

/-- The phase-one fold preserves table well-formedness. -/
theorem foldl_upsert_wf (acct : Nat) :
    ∀ (entries : List UpsertEntry) (t : ObjectsTable),
      ObjWF t → ObjWF (entries.foldl (upsertObjRow acct) t) := by
  intro entries
  induction entries with
  | nil => intro t h; exact h
  | cons e0 rest ih =>
    intro t h
    rw [List.foldl_cons]
    exact ih _ (upsertObjRow_wf acct t e0 h)

/-- Idempotence of the two-phase object batch upsert: a second run over the
same insights, against the table the first run produced, changes nothing. -/
theorem batchUpsertAdObjects_idem (acct : Nat) (t : ObjectsTable)
    (insights : List MetaInsight) (hwf : ObjWF t) :
    batchUpsertAdObjects acct (batchUpsertAdObjects acct t insights) insights
      = batchUpsertAdObjects acct t insights := by
  by_cases hempty : (buildEntries insights).isEmpty = true
  · have h0 : ∀ s : ObjectsTable, batchUpsertAdObjects acct s insights = s := by
      intro s
      unfold batchUpsertAdObjects
      rw [if_pos hempty]
    rw [h0, h0]
  · have hnd := buildEntries_nodup insights
    have hbatch : ∀ s : ObjectsTable, batchUpsertAdObjects acct s insights
        = (buildEntries insights).foldl
            (linkStep ((buildEntries insights).foldl (upsertObjRow acct) s) acct)
            ((buildEntries insights).foldl (upsertObjRow acct) s) := by
      intro s
      unfold batchUpsertAdObjects
      rw [if_neg hempty]
    have hwf2 : ObjWF ((buildEntries insights).foldl (upsertObjRow acct) t) :=
      foldl_upsert_wf acct _ t hwf
    have hks : ∀ en ∈ buildEntries insights,
        KeyState acct en.externalId en.name
          ((buildEntries insights).foldl (upsertObjRow acct) t) :=
      foldl_upsert_keystate acct _ t hnd
    have hpo : ParentsOnly ((buildEntries insights).foldl (upsertObjRow acct) t)
        ((buildEntries insights).foldl
          (linkStep ((buildEntries insights).foldl (upsertObjRow acct) t) acct)
          ((buildEntries insights).foldl (upsertObjRow acct) t)) :=
      parentsOnly_foldl_link _ acct _ _
    have hksT1 : ∀ en ∈ buildEntries insights,
        KeyState acct en.externalId en.name
          ((buildEntries insights).foldl
            (linkStep ((buildEntries insights).foldl (upsertObjRow acct) t) acct)
            ((buildEntries insights).foldl (upsertObjRow acct) t)) :=
      fun en hen => parentsOnly_keystate hpo acct _ _ (hks en hen)
    have hphase2 : (buildEntries insights).foldl (upsertObjRow acct)
        ((buildEntries insights).foldl
          (linkStep ((buildEntries insights).foldl (upsertObjRow acct) t) acct)
          ((buildEntries insights).foldl (upsertObjRow acct) t))
        = (buildEntries insights).foldl
            (linkStep ((buildEntries insights).foldl (upsertObjRow acct) t) acct)
            ((buildEntries insights).foldl (upsertObjRow acct) t) :=
      foldl_upsert_fixed acct _ _ hksT1
    have hfix : ∀ en ∈ buildEntries insights,
        linkStep ((buildEntries insights).foldl
            (linkStep ((buildEntries insights).foldl (upsertObjRow acct) t) acct)
            ((buildEntries insights).foldl (upsertObjRow acct) t)) acct
          ((buildEntries insights).foldl
            (linkStep ((buildEntries insights).foldl (upsertObjRow acct) t) acct)
            ((buildEntries insights).foldl (upsertObjRow acct) t)) en
        = (buildEntries insights).foldl
            (linkStep ((buildEntries insights).foldl (upsertObjRow acct) t) acct)
            ((buildEntries insights).foldl (upsertObjRow acct) t) := by
      intro en hen
      apply linkStep_fixed
      intro pext cid pid hp hc hpar
      rw [parentsOnly_lookup hpo] at hc hpar
      exact foldl_link_parentSet _ acct hwf2.2.1 _ _ hnd en hen pext cid pid
        hp hc hpar
    rw [hbatch t, hbatch, hphase2]
    exact foldl_fixed _ _ _ hfix

instance (t : ObjectsTable) : Decidable (ObjWF t) := by
  unfold ObjWF
  infer_instance

/-- C6: running the sync orchestrator's dimension upserts twice against
identical remote data yields the same account and hierarchy-object rows as
running them once — the upserts keyed by natural external id are
idempotent, so the second run creates no duplicate rows (the object table
is assumed to satisfy its database constraints: unique keys, unique ids,
ids below the sequence). -/
theorem C6_idempotent_dimension_upserts (t : AccountsTable) (c : Nat)
    (m : MetaAdAccount) (tObj : ObjectsTable) (acct : Nat)
    (insights : List MetaInsight) (hwf : ObjWF tObj) :
    upsertAdAccount (upsertAdAccount t c m).1 c m = upsertAdAccount t c m ∧
    batchUpsertAdObjects acct (batchUpsertAdObjects acct tObj insights) insights
      = batchUpsertAdObjects acct tObj insights :=
  ⟨upsertAdAccount_idem t c m, batchUpsertAdObjects_idem acct tObj insights hwf⟩

/-- Witness for C6: one insight carrying a campaign, ad set and ad, synced
twice into an empty store, and one account upserted twice; the second runs
change nothing, and the first run produced exactly the 3-level hierarchy. -/
theorem C6_idempotent_dimension_upserts_witness :
    ObjWF ⟨[], 0⟩ ∧
    (upsertAdAccount
        (upsertAdAccount ⟨[], 0⟩ 1
          ⟨"act_9", "Acme", "USD", "America/Argentina/San_Luis"⟩).1 1
        ⟨"act_9", "Acme", "USD", "America/Argentina/San_Luis"⟩
      = upsertAdAccount ⟨[], 0⟩ 1
          ⟨"act_9", "Acme", "USD", "America/Argentina/San_Luis"⟩ ∧
     batchUpsertAdObjects 5
        (batchUpsertAdObjects 5 ⟨[], 0⟩
          [⟨0, none, none, none, some "c1", some "Camp", some "s1", some "Set",
            some "a1", some "Ad"⟩])
        [⟨0, none, none, none, some "c1", some "Camp", some "s1", some "Set",
          some "a1", some "Ad"⟩]
      = batchUpsertAdObjects 5 ⟨[], 0⟩
          [⟨0, none, none, none, some "c1", some "Camp", some "s1", some "Set",
            some "a1", some "Ad"⟩]) ∧
    (batchUpsertAdObjects 5 ⟨[], 0⟩
        [⟨0, none, none, none, some "c1", some "Camp", some "s1", some "Set",
          some "a1", some "Ad"⟩]).rows.length = 3 :=
  ⟨by decide,
    C6_idempotent_dimension_upserts ⟨[], 0⟩ 1
      ⟨"act_9", "Acme", "USD", "America/Argentina/San_Luis"⟩ ⟨[], 0⟩ 5
      [⟨0, none, none, none, some "c1", some "Camp", some "s1", some "Set",
        some "a1", some "Ad"⟩] (by decide),
    by decide⟩

end Boris
